import Mathlib

/-!
Verification of the durable single-queue job scheduler of this repository.

Two backends are modelled faithfully from the source:

* `FilesQ` — the flat-file backend (`queues_on_files/producer.py`,
  `queues_on_files/consumer.py`).  The persisted store is a text file;
  Python strings are modelled as `List Char` (`PyStr`) so that the
  comma/newline split-and-join logic of the source can be reasoned about
  exactly.  Python dicts built by `dict(zip(header, row))` are modelled as
  insertion-ordered association lists with unique keys (`PyDict`).

* `SqliteQ` — the transactional backend (`queues_on_sqllite/producer.py`,
  `queues_on_sqllite/consumer.py`).  The `jobs` table is a list of typed
  rows plus the auto-increment counter.

The worker loops' exception flow is modelled with `Except`, the queue's
operation sequences as explicit traces.
-/

/-- Python strings, modelled as lists of characters. -/
abbrev PyStr := List Char

/-- Shorthand turning a Lean string literal into the `PyStr` model. -/
def pys (s : String) : PyStr := s.data

/-- Python `s.split(sep)` for a one-character separator: always returns a
nonempty list; the empty string splits to `[[]]`. -/
def splitOnChar (sep : Char) : PyStr → List PyStr
  | [] => [[]]
  | c :: rest =>
    match splitOnChar sep rest with
    | [] => [[]]
    | p :: ps => if c = sep then [] :: p :: ps else (c :: p) :: ps

/-- Python `sep.join(pieces)` for a one-character separator. -/
def joinWith (sep : Char) : List PyStr → PyStr
  | [] => []
  | [x] => x
  | x :: y :: rest => x ++ sep :: joinWith sep (y :: rest)

theorem splitOnChar_ne_nil (sep : Char) (s : PyStr) : splitOnChar sep s ≠ [] := by
  cases s with
  | nil => simp [splitOnChar]
  | cons c rest =>
    simp only [splitOnChar]
    cases h : splitOnChar sep rest with
    | nil => simp
    | cons p ps =>
      by_cases hc : c = sep <;> simp [hc]

theorem splitOnChar_sep_not_mem (sep : Char) (s : PyStr) :
    ∀ p ∈ splitOnChar sep s, sep ∉ p := by
  induction s with
  | nil => simp [splitOnChar]
  | cons c rest ih =>
    simp only [splitOnChar]
    cases h : splitOnChar sep rest with
    | nil => exact absurd h (splitOnChar_ne_nil sep rest)
    | cons p ps =>
      have ihp : sep ∉ p := ih p (h ▸ List.mem_cons_self p ps)
      have ihps : ∀ q ∈ ps, sep ∉ q := fun q hq => ih q (h ▸ List.mem_cons_of_mem p hq)
      by_cases hc : c = sep
      · simp only [if_pos hc]
        intro q hq
        rcases List.mem_cons.mp hq with rfl | hq
        · simp
        · rcases List.mem_cons.mp hq with rfl | hq
          · exact ihp
          · exact ihps q hq
      · simp only [if_neg hc]
        intro q hq
        rcases List.mem_cons.mp hq with rfl | hq
        · intro hmem
          rcases List.mem_cons.mp hmem with h1 | h1
          · exact hc h1.symm
          · exact ihp h1
        · exact ihps q hq

/-- Splitting after joining recovers the pieces, provided no piece contains
the separator and the list of pieces is nonempty. -/
theorem splitOnChar_joinWith (sep : Char) (l : List PyStr)
    (hne : l ≠ []) (hsep : ∀ p ∈ l, sep ∉ p) :
    splitOnChar sep (joinWith sep l) = l := by
  induction l with
  | nil => exact absurd rfl hne
  | cons x xs ih =>
    cases xs with
    | nil =>
      simp only [joinWith]
      have hx : sep ∉ x := hsep x (List.mem_cons_self x [])
      clear ih hne hsep
      induction x with
      | nil => simp [splitOnChar]
      | cons c cs ihx =>
        have hc : c ≠ sep := fun h => hx (h ▸ List.mem_cons_self c cs)
        have hcs : sep ∉ cs := fun h => hx (List.mem_cons_of_mem c h)
        simp only [List.cons_append, List.nil_append, splitOnChar]
        rw [ihx hcs]
        simp [hc]
    | cons y ys =>
      have hx : sep ∉ x := hsep x (List.mem_cons_self x (y :: ys))
      have hrest : ∀ p ∈ y :: ys, sep ∉ p := fun p hp => hsep p (List.mem_cons_of_mem x hp)
      have ihrest := ih (by simp) hrest
      simp only [joinWith]
      clear ih hne hsep
      induction x with
      | nil =>
        simp only [List.nil_append, splitOnChar]
        rw [ihrest]
        simp
      | cons c cs ihx =>
        have hc : c ≠ sep := fun h => hx (h ▸ List.mem_cons_self c cs)
        have hcs : sep ∉ cs := fun h => hx (List.mem_cons_of_mem c h)
        simp only [List.cons_append, splitOnChar, List.append_eq]
        rw [ihx hcs]
        simp [hc]

/-- Joining the pieces of a split recovers the original string. -/
theorem joinWith_splitOnChar (sep : Char) (s : PyStr) :
    joinWith sep (splitOnChar sep s) = s := by
  induction s with
  | nil => simp [splitOnChar, joinWith]
  | cons c rest ih =>
    simp only [splitOnChar]
    cases h : splitOnChar sep rest with
    | nil => exact absurd h (splitOnChar_ne_nil sep rest)
    | cons p ps =>
      rw [h] at ih
      by_cases hc : c = sep
      · subst hc
        simp only [if_pos rfl]
        cases ps with
        | nil => simp only [joinWith] at ih ⊢; simp [ih]
        | cons q qs => simp only [joinWith] at ih ⊢; simp [ih]
      · simp only [if_neg hc]
        cases ps with
        | nil => simp only [joinWith] at ih ⊢; rw [ih]
        | cons q qs =>
          simp only [joinWith] at ih ⊢
          simp only [List.cons_append]
          rw [ih]

/-- Python `s.splitlines()` restricted to the `\n` line boundary (the only
one this program ever writes): split on newline, then drop the trailing
empty piece that a terminating newline produces. -/
def splitlines (s : PyStr) : List PyStr :=
  let l := splitOnChar '\n' s
  if l.getLast? = some [] then l.dropLast else l

/-- Python whitespace for `str.strip()`. -/
def isPySpace (c : Char) : Bool :=
  c = ' ' || c = '\t' || c = '\n' || c = '\r' || c = '\x0b' || c = '\x0c'

/-- Python `not s.strip()`: true when the string is all whitespace. -/
def isBlank (s : PyStr) : Bool := s.all isPySpace

/-- The character for a decimal digit. -/
def digitChar (d : Nat) : Char := Char.ofNat (48 + d)

/-- Decimal rendering, most significant digit first, with enough fuel to
consume every digit (structural, so that it evaluates by plain reduction). -/
def natToStrAux : Nat → Nat → PyStr → PyStr
  | 0, _, acc => acc
  | fuel + 1, n, acc =>
    if n = 0 then acc else natToStrAux fuel (n / 10) (digitChar (n % 10) :: acc)

/-- Python `str(n)` for a nonnegative integer. -/
def natToStr (n : Nat) : PyStr := if n = 0 then [digitChar 0] else natToStrAux n n []

theorem natToStrAux_chars (fuel : Nat) : ∀ (n : Nat) (acc : PyStr) (c : Char),
    c ∈ natToStrAux fuel n acc → (∃ d, d < 10 ∧ c = digitChar d) ∨ c ∈ acc := by
  induction fuel with
  | zero => intro n acc c h; rw [natToStrAux] at h; exact Or.inr h
  | succ m ih =>
    intro n acc c h
    rw [natToStrAux] at h
    by_cases hn : n = 0
    · rw [if_pos hn] at h; exact Or.inr h
    · rw [if_neg hn] at h
      rcases ih _ _ _ h with hd | hacc
      · exact Or.inl hd
      · rcases List.mem_cons.mp hacc with rfl | h2
        · exact Or.inl ⟨n % 10, Nat.mod_lt _ (by omega), rfl⟩
        · exact Or.inr h2

/-- A decimal rendering never contains a comma or a newline. -/
theorem natToStr_no_sep (n : Nat) : ',' ∉ natToStr n ∧ '\n' ∉ natToStr n := by
  constructor <;>
  · intro h
    unfold natToStr at h
    by_cases hn : n = 0
    · rw [if_pos hn] at h
      exact absurd (List.mem_singleton.mp h) (by decide)
    · rw [if_neg hn] at h
      rcases natToStrAux_chars n n [] _ h with ⟨d, hd, hc⟩ | habs
      · interval_cases d <;> exact absurd hc (by decide)
      · simp at habs

/-! ## Python dict model

`dict(zip(header, row))` in the source builds an insertion-ordered map with
unique keys, later assignments to an existing key updating it in place.
-/

/-- An insertion-ordered Python dict with string keys and values. -/
abbrev PyDict := List (PyStr × PyStr)

/-- Python `d[k] = v`: update in place if the key exists, else append. -/
def dictSet (d : PyDict) (k v : PyStr) : PyDict :=
  if d.any (fun p => p.1 = k) then
    d.map (fun p => if p.1 = k then (k, v) else p)
  else
    d ++ [(k, v)]

/-- Python `d.get(k, "")`. The source uses both `.get(k)` (default `None`)
and `.get(k, "")`; every use compares with or serializes a string, for
which the empty default is observationally the same. -/
def dictGet (d : PyDict) (k : PyStr) : PyStr :=
  ((d.find? (fun p => p.1 = k)).map Prod.snd).getD []

/-- Python `dict(pairs)` starting from the dict `d`: insert the pairs left
to right with `dictSet`. -/
def dictInsertAll (d : PyDict) : List (PyStr × PyStr) → PyDict
  | [] => d
  | (k, v) :: rest => dictInsertAll (dictSet d k v) rest

/-- Python `dict(zip(ks, vs))`. -/
def pyDict (ks vs : List PyStr) : PyDict := dictInsertAll [] (ks.zip vs)

/-! ## Flat-file backend (`queues_on_files`)

The OS file lock (`msvcrt.locking`) serializes whole read-modify-write
sections; the functions below model the content transformations performed
inside those critical sections.  A store is `Option PyStr`: `none` when
`queue.csv` does not exist, `some content` otherwise.
-/

namespace FilesQ

/-- The `id` column key. -/
def idK : PyStr := pys "id"

/-- The `status` column key. -/
def statusK : PyStr := pys "status"

/-- The `created_at` column key. -/
def createdK : PyStr := pys "created_at"

/-- The `updated_at` column key. -/
def updatedK : PyStr := pys "updated_at"

/-- The header row used when the file is empty or absent:
`["id", "status", "created_at", "updated_at"]`. -/
def headerDefault : List PyStr := [idK, statusK, createdK, updatedK]

/-- Status literal `pending`. -/
def pendingS : PyStr := pys "pending"

/-- Status literal `in_progress`. -/
def inProgressS : PyStr := pys "in_progress"

/-- Status literal `done`. -/
def doneS : PyStr := pys "done"

/-- `[line.split(",") for line in content.splitlines()]`. -/
def parseRows (content : PyStr) : List (List PyStr) :=
  (splitlines content).map (splitOnChar ',')

/-- One row of the parsed file as a job dict:
`row += [""] * (len(header) - len(row)); dict(zip(header, row))`. -/
def rowToJob (header row : List PyStr) : PyDict :=
  pyDict header (row ++ List.replicate (header.length - row.length) [])

/-- The parsing core of `read_queue_with_lock` once the file exists: blank
content yields the default header and no jobs; otherwise the first line is
the header and each further line one job. -/
def readContent (content : PyStr) : List PyStr × List PyDict :=
  if isBlank content then (headerDefault, [])
  else
    match parseRows content with
    | [] => (headerDefault, [])
    | header :: rest => (header, rest.map (rowToJob header))

/-- `read_queue_with_lock()`: `(None, None, [])` when the file does not
exist, else the parsed header and jobs.  The first component models the
returned file handle / header pair being present. -/
def read_queue_with_lock : Option PyStr → Option (List PyStr) × List PyDict
  | none => (none, [])
  | some content =>
    let hj := readContent content
    (some hj.1, hj.2)

/-- The job list a `load()` of the store observes. -/
def loadJobs (store : Option PyStr) : List PyDict :=
  (read_queue_with_lock store).2

/-- `write_queue_with_lock(f, header, jobs)`: serialize the header line and,
for each job, the four canonical fields (via `.get(k, "")`) joined with
commas; lines joined with a newline and a trailing newline appended. -/
def write_queue_with_lock (header : List PyStr) (jobs : List PyDict) : PyStr :=
  let rows := jobs.map (fun job =>
    joinWith ',' [dictGet job idK, dictGet job statusK,
                  dictGet job createdK, dictGet job updatedK])
  joinWith '\n' (joinWith ',' header :: rows) ++ ['\n']

/-- `find_pending_job(jobs)`: first job whose `status` field is `pending`. -/
def find_pending_job (jobs : List PyDict) : Option PyDict :=
  jobs.find? (fun job => dictGet job statusK = pendingS)

/-- `add_job()` of the producer, acting on the locked store: re-serializes
the raw split rows, appends `[str(new_id), "pending", now, ""]` with
`new_id = len(data_rows) + 1`, and returns the new content and id. -/
def add_job (store : Option PyStr) (now : PyStr) : PyStr × Nat :=
  let content := store.getD []
  let rows := if content = [] then [] else parseRows content
  let hd := match rows with
    | [] => (headerDefault, ([] : List (List PyStr)))
    | h :: t => (h, t)
  let new_id := hd.2.length + 1
  let data_rows := hd.2 ++ [[natToStr new_id, pendingS, now, []]]
  (joinWith '\n' (joinWith ',' hd.1 :: data_rows.map (joinWith ',')) ++ ['\n'], new_id)

/-- Steps 1–3 of `worker_loop` on an existing file: read, find the first
pending job, and if there is one set its `status` to `in_progress` and its
`updated_at` to `now` (in-place dict mutation), then rewrite the file.
Returns the resulting content and the claimed row's index and dict. -/
def claim_step (content : PyStr) (now : PyStr) : PyStr × Option (Nat × PyDict) :=
  let hj := readContent content
  match hj.2.findIdx? (fun job => dictGet job statusK = pendingS) with
  | none => (content, none)
  | some i =>
    let claimed := dictSet (dictSet (hj.2.getD i []) statusK inProgressS) updatedK now
    (write_queue_with_lock hj.1 (hj.2.set i claimed), some (i, claimed))

/-- Steps 5–6 of `worker_loop`: re-read the store; if the file disappeared
the done-update is skipped, otherwise every job whose `id` field equals the
claimed job's id is set to `done` with `updated_at = now`, and the file is
rewritten. -/
def complete_pass (store : Option PyStr) (jobId : PyStr) (now : PyStr) : Option PyStr :=
  match store with
  | none => none
  | some content =>
    let hj := readContent content
    let jobs2 := hj.2.map (fun j =>
      if dictGet j idK = jobId then dictSet (dictSet j statusK doneS) updatedK now else j)
    some (write_queue_with_lock hj.1 jobs2)

end FilesQ

/-! ## Transactional backend (`queues_on_sqllite`)

The `jobs` table with its `AUTOINCREMENT` primary key is a list of typed
rows together with the auto-increment counter (largest id ever assigned).
`BEGIN EXCLUSIVE` makes each operation below one atomic step.
-/

namespace SqliteQ

/-- One row of the `jobs` table. -/
structure SqlJob where
  id : Nat
  status : String
  created_at : String
  updated_at : Option String
deriving DecidableEq, Repr

/-- The `jobs` table plus its auto-increment counter. -/
structure Table where
  seq : Nat
  rows : List SqlJob
deriving DecidableEq, Repr

/-- The empty, freshly created table. -/
def emptyTable : Table := ⟨0, []⟩

/-- `init_db()`: `CREATE TABLE IF NOT EXISTS` — creates the table when
absent, leaves it untouched otherwise. -/
def init_db : Option Table → Table
  | none => emptyTable
  | some t => t

/-- `add_job()` of the producer: `init_db()` then
`INSERT INTO jobs (status, created_at) VALUES ('pending', now)`; the new
row gets the next auto-increment id, which is returned
(`last_insert_rowid`). -/
def add_job (db : Option Table) (now : String) : Table × Nat :=
  let t := init_db db
  let jid := t.seq + 1
  (⟨jid, t.rows ++ [⟨jid, "pending", now, none⟩]⟩, jid)

/-- `SELECT ... WHERE status = 'pending' ORDER BY id LIMIT 1`: the row with
the smallest id in the list (first one in case of equal ids). -/
def minIdRow : List SqlJob → Option SqlJob
  | [] => none
  | r :: rest =>
    match minIdRow rest with
    | none => some r
    | some m => if r.id ≤ m.id then some r else some m

/-- `fetch_pending_job()`: inside one exclusive transaction, select the
pending row with the smallest id; if none, roll back and return `None`;
otherwise `UPDATE jobs SET status = 'in_progress', updated_at = now WHERE
id = job_id`, commit, and return the job id. -/
def fetch_pending_job (t : Table) (now : String) : Table × Option Nat :=
  match minIdRow (t.rows.filter (fun r => r.status = "pending")) with
  | none => (t, none)
  | some r =>
    (⟨t.seq, t.rows.map (fun x =>
        if x.id = r.id then { x with status := "in_progress", updated_at := some now } else x)⟩,
     some r.id)

/-- `mark_done(job_id)`: `UPDATE jobs SET status = 'done', updated_at = now
WHERE id = job_id` — unconditional on the current status; zero matching
rows means no change and no error. -/
def mark_done (t : Table) (jid : Nat) (now : String) : Table :=
  ⟨t.seq, t.rows.map (fun x =>
      if x.id = jid then { x with status := "done", updated_at := some now } else x)⟩

/-- The status of the job with id `j` as a reader observes it (`none` when
no such row exists). -/
def statusOf (t : Table) (j : Nat) : Option String :=
  (t.rows.find? (fun r => r.id = j)).map SqlJob.status

/-- A sequence of claim attempts: run `fetch_pending_job` once per
timestamp in `nows`, collecting the ids of the successful claims. -/
def claimSeq (t : Table) : List String → Table × List Nat
  | [] => (t, [])
  | now :: rest =>
    match fetch_pending_job t now with
    | (t1, none) => claimSeq t1 rest
    | (t1, some j) =>
      let r := claimSeq t1 rest
      (r.1, j :: r.2)

/-! ### The worker loop's exception flow

`worker_loop` runs `fetch_pending_job()`, `consume_job(job)` and
`mark_done(job_id)` inside one `try:` whose `except Exception:` prints the
error and sleeps 5 seconds.  Each step is given as an `Except` oracle; the
iteration's result is `Except.error` exactly when an exception escapes the
loop body uncaught. -/

/-- Outcome of one iteration of `worker_loop`. -/
inductive IterResult where
  /-- No pending job: print and sleep 5 seconds. -/
  | noJob
  /-- A job was claimed, processed and marked done. -/
  | completed (jid : Nat)
  /-- An exception was caught by the `except` at the top of the iteration:
  print the error and sleep `backoffSecs` seconds. -/
  | errorCaught (backoffSecs : Nat)
deriving DecidableEq, Repr

/-- The `try:` body of one `worker_loop` iteration: fetch, then (when a job
was claimed) process it and mark it done.  An `Except.error` is an
exception propagating out of the body. -/
def try_body (fetch : Except String (Option Nat))
    (process : Nat → Except String Unit)
    (markDone : Nat → Except String Unit) : Except String IterResult := do
  match (← fetch) with
  | none => pure IterResult.noJob
  | some j => do
      process j
      markDone j
      pure (IterResult.completed j)

/-- One full iteration of `worker_loop` with its `except Exception` handler:
any exception raised in the body is caught and becomes a 5-second backoff. -/
def worker_iteration (fetch : Except String (Option Nat))
    (process : Nat → Except String Unit)
    (markDone : Nat → Except String Unit) : Except String IterResult :=
  match try_body fetch process markDone with
  | Except.ok r => Except.ok r
  | Except.error _ => Except.ok (IterResult.errorCaught 5)

/-! ### Operation traces

The queue's operations — producer `submit`, consumer `claim`
(`fetch_pending_job`) and consumer `complete` (`mark_done`) — as a
transition system over the table, used for the temporal claims. -/

/-- One operation of the queue. -/
inductive QOp where
  /-- Producer `add_job` with the given timestamp. -/
  | submit (now : String)
  /-- Consumer `fetch_pending_job` with the given timestamp. -/
  | claim (now : String)
  /-- Consumer `mark_done jid` with the given timestamp. -/
  | complete (jid : Nat) (now : String)

/-- The table after one operation. -/
def qstep (t : Table) : QOp → Table
  | QOp.submit now => (add_job (some t) now).1
  | QOp.claim now => (fetch_pending_job t now).1
  | QOp.complete jid now => mark_done t jid now

/-- Admissible operation sequences: `complete jid` is only ever issued by a
worker that has just claimed job `jid` and processed it, at which point the
job's status is `in_progress` (no other claim can touch a non-pending job
and every other worker completes the id it itself claimed). -/
inductive Admissible : Table → List QOp → Prop where
  | nil (t : Table) : Admissible t []
  | submit (t : Table) (now : String) (ops : List QOp)
      (h : Admissible (qstep t (QOp.submit now)) ops) :
      Admissible t (QOp.submit now :: ops)
  | claim (t : Table) (now : String) (ops : List QOp)
      (h : Admissible (qstep t (QOp.claim now)) ops) :
      Admissible t (QOp.claim now :: ops)
  | complete (t : Table) (jid : Nat) (now : String) (ops : List QOp)
      (hst : statusOf t jid = some "in_progress")
      (h : Admissible (qstep t (QOp.complete jid now)) ops) :
      Admissible t (QOp.complete jid now :: ops)

/-- The statuses of job `j` observed after each step of the trace
(including the initial table), `none` while the job does not exist. -/
def statusTrace (t : Table) (j : Nat) : List QOp → List (Option String)
  | [] => [statusOf t j]
  | op :: ops => statusOf t j :: statusTrace (qstep t op) j ops

/-- Collapse consecutive repeats, keeping one representative of each run. -/
def collapseRuns : List String → List String
  | [] => []
  | [a] => [a]
  | a :: b :: rest =>
    if a = b then collapseRuns (b :: rest) else a :: collapseRuns (b :: rest)

/-- The observed status sequence of job `j` along a trace: the distinct
statuses in order of first observation of each run. -/
def observedStatuses (t : Table) (j : Nat) (ops : List QOp) : List String :=
  collapseRuns ((statusTrace t j ops).reduceOption)

end SqliteQ

/-! ## Serialization round-trip lemmas -/

theorem joinWith_not_mem (sep c : Char) (l : List PyStr)
    (hc : c ≠ sep) (h : ∀ p ∈ l, c ∉ p) : c ∉ joinWith sep l := by
  induction l with
  | nil => simp [joinWith]
  | cons x xs ih =>
    cases xs with
    | nil =>
      simp only [joinWith]
      exact h x (List.mem_cons_self x [])
    | cons y ys =>
      simp only [joinWith]
      intro hmem
      rcases List.mem_append.mp hmem with h1 | h1
      · exact h x (List.mem_cons_self x (y :: ys)) h1
      · rcases List.mem_cons.mp h1 with h2 | h2
        · exact hc h2
        · exact ih (fun p hp => h p (List.mem_cons_of_mem x hp)) h2

theorem joinWith_append_sep (sep : Char) (l : List PyStr) (hne : l ≠ []) :
    joinWith sep l ++ [sep] = joinWith sep (l ++ [[]]) := by
  induction l with
  | nil => exact absurd rfl hne
  | cons x xs ih =>
    cases xs with
    | nil => simp [joinWith]
    | cons y ys =>
      have h2 := ih (by simp)
      simp only [joinWith, List.cons_append, List.append_assoc, List.append_eq] at h2 ⊢
      rw [h2]

theorem mem_joinWith_of_mem (sep : Char) (l : List PyStr) (p : PyStr) (c : Char)
    (hp : p ∈ l) (hc : c ∈ p) : c ∈ joinWith sep l := by
  induction l with
  | nil => simp at hp
  | cons x xs ih =>
    cases xs with
    | nil =>
      simp only [joinWith]
      rcases List.mem_cons.mp hp with rfl | h1
      · exact hc
      · simp at h1
    | cons y ys =>
      simp only [joinWith]
      rcases List.mem_cons.mp hp with rfl | h1
      · exact List.mem_append.mpr (Or.inl hc)
      · exact List.mem_append.mpr (Or.inr (List.mem_cons_of_mem _ (ih h1)))

theorem mem_of_mem_splitOnChar (sep : Char) (s p : PyStr) (c : Char)
    (hp : p ∈ splitOnChar sep s) (hc : c ∈ p) : c ∈ s := by
  have := mem_joinWith_of_mem sep (splitOnChar sep s) p c hp hc
  rwa [joinWith_splitOnChar] at this

theorem mem_splitOnChar_of_mem_splitlines (s p : PyStr)
    (hp : p ∈ splitlines s) : p ∈ splitOnChar '\n' s := by
  unfold splitlines at hp
  by_cases h : (splitOnChar '\n' s).getLast? = some []
  · rw [if_pos h] at hp
    exact List.dropLast_subset _ hp
  · rwa [if_neg h] at hp

theorem not_lf_mem_of_mem_splitlines (s p : PyStr) (hp : p ∈ splitlines s) :
    '\n' ∉ p :=
  splitOnChar_sep_not_mem '\n' s p (mem_splitOnChar_of_mem_splitlines s p hp)

/-- The exact content layout both writers produce: rows of fields, each row
joined with commas, the lines joined with newlines, and a final newline. -/
def FilesQ.serializeRows (rs : List (List PyStr)) : PyStr :=
  joinWith '\n' (rs.map (joinWith ',')) ++ ['\n']

theorem splitlines_join (lines : List PyStr) (hne : lines ≠ [])
    (h : ∀ p ∈ lines, '\n' ∉ p) :
    splitlines (joinWith '\n' lines ++ ['\n']) = lines := by
  rw [joinWith_append_sep '\n' lines hne, splitlines]
  have hsplit : splitOnChar '\n' (joinWith '\n' (lines ++ [[]])) = lines ++ [[]] := by
    apply splitOnChar_joinWith
    · simp
    · intro p hp
      rcases List.mem_append.mp hp with h1 | h1
      · exact h p h1
      · simp at h1; simp [h1]
  simp only [hsplit, List.getLast?_concat, List.dropLast_concat]
  simp

theorem FilesQ.parseRows_serializeRows (rs : List (List PyStr)) (hne : rs ≠ [])
    (hrne : ∀ r ∈ rs, r ≠ [])
    (hf : ∀ r ∈ rs, ∀ f ∈ r, ',' ∉ f ∧ '\n' ∉ f) :
    FilesQ.parseRows (FilesQ.serializeRows rs) = rs := by
  unfold FilesQ.parseRows FilesQ.serializeRows
  rw [splitlines_join]
  · rw [List.map_map]
    have : ∀ r ∈ rs, (splitOnChar ',' ∘ joinWith ',') r = id r := by
      intro r hr
      simp only [Function.comp_apply, id_eq]
      exact splitOnChar_joinWith ',' r (hrne r hr) (fun f hfm => (hf r hr f hfm).1)
    rw [List.map_congr_left this, List.map_id]
  · intro habs
    exact hne (List.map_eq_nil_iff.mp habs)
  · intro p hp
    rcases List.mem_map.mp hp with ⟨r, hr, rfl⟩
    exact joinWith_not_mem ',' '\n' r (by decide) (fun f hfm => (hf r hr f hfm).2)

theorem isBlank_false_of_mem (s : PyStr) (c : Char) (hc : c ∈ s)
    (hw : isPySpace c = false) : isBlank s = false := by
  unfold isBlank
  rw [Bool.eq_false_iff]
  intro hall
  have h2 := List.all_eq_true.mp hall c hc
  rw [hw] at h2
  exact Bool.false_ne_true h2

namespace FilesQ

/-- The canonical shape of a parsed job dict: the four columns in header
order. -/
def mkJob (a b c d : PyStr) : PyDict :=
  [(idK, a), (statusK, b), (createdK, c), (updatedK, d)]

theorem pyDict_headerDefault (a b c d : PyStr) :
    pyDict headerDefault [a, b, c, d] = mkJob a b c d := rfl

theorem rowToJob_eq (row : List PyStr) :
    rowToJob headerDefault row =
      mkJob (row.getD 0 []) (row.getD 1 []) (row.getD 2 []) (row.getD 3 []) := by
  match row with
  | [] => rfl
  | [a] => rfl
  | [a, b] => rfl
  | [a, b, c] => rfl
  | a :: b :: c :: d :: t =>
    show rowToJob headerDefault (a :: b :: c :: d :: t) = _
    simp [rowToJob, pyDict]
    rfl

theorem dictGet_mkJob_id (a b c d : PyStr) : dictGet (mkJob a b c d) idK = a := rfl

theorem dictGet_mkJob_status (a b c d : PyStr) : dictGet (mkJob a b c d) statusK = b := rfl

theorem dictGet_mkJob_created (a b c d : PyStr) : dictGet (mkJob a b c d) createdK = c := rfl

theorem dictGet_mkJob_updated (a b c d : PyStr) : dictGet (mkJob a b c d) updatedK = d := rfl

theorem dictSet_mkJob_status (a b c d v : PyStr) :
    dictSet (mkJob a b c d) statusK v = mkJob a v c d := rfl

theorem dictSet_mkJob_updated (a b c d v : PyStr) :
    dictSet (mkJob a b c d) updatedK v = mkJob a b c v := rfl

theorem write_queue_eq_serialize (header : List PyStr) (jobs : List PyDict) :
    write_queue_with_lock header jobs =
    serializeRows (header :: jobs.map (fun j =>
      [dictGet j idK, dictGet j statusK, dictGet j createdK, dictGet j updatedK])) := by
  simp [write_queue_with_lock, serializeRows, Function.comp_def]

/-- Every row produced by `parseRows` is nonempty and none of its fields
contains a comma or a newline. -/
theorem parseRows_fields (content : PyStr) :
    ∀ r ∈ parseRows content, r ≠ [] ∧ ∀ f ∈ r, ',' ∉ f ∧ '\n' ∉ f := by
  intro r hr
  rcases List.mem_map.mp hr with ⟨line, hline, rfl⟩
  refine ⟨splitOnChar_ne_nil ',' line, fun f hf => ⟨splitOnChar_sep_not_mem ',' line f hf, ?_⟩⟩
  intro hlf
  exact not_lf_mem_of_mem_splitlines content line hline
    (mem_of_mem_splitOnChar ',' line f '\n' hf hlf)

/-- Well-formed stores: absent, empty, or content whose first line parses to
the canonical header.  All stores the producer ever writes are of this
shape. -/
def WFStore : Option PyStr → Prop
  | none => True
  | some content => content = [] ∨ (parseRows content).head? = some headerDefault

/-- Non-blank detection for well-formed nonempty content: the letter `i` of
the header is a non-whitespace character of the content. -/
theorem isBlank_false_of_header (content : PyStr)
    (h : (parseRows content).head? = some headerDefault) : isBlank content = false := by
  have hne : parseRows content ≠ [] := by
    intro habs; rw [habs] at h; simp at h
  rcases List.exists_cons_of_ne_nil hne with ⟨r0, rest, hr⟩
  rw [hr] at h
  simp only [List.head?_cons, Option.some.injEq] at h
  have hr0 : r0 ∈ parseRows content := hr ▸ List.mem_cons_self r0 rest
  rcases List.mem_map.mp hr0 with ⟨line, hline, hsplit⟩
  have hiK : idK ∈ splitOnChar ',' line := by
    rw [hsplit, h]; exact List.mem_cons_self _ _
  have hi_line : 'i' ∈ line :=
    mem_of_mem_splitOnChar ',' line idK 'i' hiK (by decide)
  have hi_content : 'i' ∈ content :=
    mem_of_mem_splitOnChar '\n' content line 'i'
      (mem_splitOnChar_of_mem_splitlines content line hline) hi_line
  exact isBlank_false_of_mem content 'i' hi_content (by decide)

/-- On well-formed nonempty content, `readContent` returns the canonical
header and one canonical job dict per data row. -/
theorem readContent_of_WF (content : PyStr)
    (h : (parseRows content).head? = some headerDefault) :
    readContent content =
      (headerDefault, (parseRows content).tail.map (rowToJob headerDefault)) := by
  unfold readContent
  rw [isBlank_false_of_header content h]
  simp only [Bool.false_eq_true, if_false]
  have hne : parseRows content ≠ [] := by
    intro habs; rw [habs] at h; simp at h
  rcases List.exists_cons_of_ne_nil hne with ⟨r0, rest, hr⟩
  rw [hr] at h ⊢
  simp only [List.head?_cons, Option.some.injEq] at h
  rw [h]
  simp

end FilesQ

namespace FilesQ

/-- The data rows (raw split fields) `add_job` finds in a store. -/
def parseDataRows : Option PyStr → List (List PyStr)
  | none => []
  | some content => if content = [] then [] else (parseRows content).tail

theorem parseRows_nil : parseRows [] = [] := rfl

theorem loadJobs_of_WF (store : Option PyStr) (h : WFStore store) :
    loadJobs store = (parseDataRows store).map (rowToJob headerDefault) := by
  match store with
  | none => rfl
  | some content =>
    by_cases hc : content = []
    · subst hc; rfl
    · rcases h with rfl | hh
      · exact absurd rfl hc
      · simp only [loadJobs, read_queue_with_lock, parseDataRows, if_neg hc]
        rw [readContent_of_WF content hh]

theorem add_job_eq (store : Option PyStr) (now : PyStr) (h : WFStore store) :
    add_job store now =
      (serializeRows (headerDefault :: (parseDataRows store ++
         [[natToStr ((parseDataRows store).length + 1), pendingS, now, []]])),
       (parseDataRows store).length + 1) := by
  match store with
  | none => rfl
  | some content =>
    by_cases hc : content = []
    · subst hc; rfl
    · rcases h with rfl | hh
      · exact absurd rfl hc
      · have hne : parseRows content ≠ [] := by
          intro habs; rw [habs] at hh; simp at hh
        rcases List.exists_cons_of_ne_nil hne with ⟨r0, rest, hr⟩
        rw [hr] at hh
        simp only [List.head?_cons, Option.some.injEq] at hh
        unfold add_job serializeRows
        simp only [parseDataRows, Option.getD_some, if_neg hc, hr, hh, List.tail_cons,
          List.map_cons, List.map_append]

/-- Every field of every data row of a store is free of commas and
newlines, and every data row is nonempty. -/
theorem parseDataRows_fields (store : Option PyStr) :
    ∀ r ∈ parseDataRows store, r ≠ [] ∧ ∀ f ∈ r, ',' ∉ f ∧ '\n' ∉ f := by
  match store with
  | none => intro r hr; simp [parseDataRows] at hr
  | some content =>
    intro r hr
    simp only [parseDataRows] at hr
    by_cases hc : content = []
    · rw [if_pos hc] at hr; simp at hr
    · rw [if_neg hc] at hr
      exact parseRows_fields content r (List.mem_of_mem_tail hr)

theorem headerDefault_fields :
    ∀ f ∈ headerDefault, ',' ∉ f ∧ '\n' ∉ f := by decide

/-- Parsing the content written by `add_job` recovers exactly the old data
rows plus the new `pending` row. -/
theorem parseRows_add (store : Option PyStr) (now : PyStr) (h : WFStore store)
    (hnow : ',' ∉ now ∧ '\n' ∉ now) :
    parseRows (add_job store now).1 =
      headerDefault :: (parseDataRows store ++
        [[natToStr ((parseDataRows store).length + 1), pendingS, now, []]]) := by
  rw [add_job_eq store now h]
  apply parseRows_serializeRows
  · simp
  · intro r hr
    rcases List.mem_cons.mp hr with rfl | hr
    · simp [headerDefault]
    · rcases List.mem_append.mp hr with hr | hr
      · exact (parseDataRows_fields store r hr).1
      · simp at hr; simp [hr]
  · intro r hr f hf
    rcases List.mem_cons.mp hr with rfl | hr
    · exact headerDefault_fields f hf
    · rcases List.mem_append.mp hr with hr | hr
      · exact (parseDataRows_fields store r hr).2 f hf
      · simp only [List.mem_singleton] at hr
        subst hr
        rcases List.mem_cons.mp hf with rfl | hf
        · exact ⟨(natToStr_no_sep _).1, (natToStr_no_sep _).2⟩
        · rcases List.mem_cons.mp hf with rfl | hf
          · constructor <;> decide
          · rcases List.mem_cons.mp hf with rfl | hf
            · exact hnow
            · simp at hf; simp [hf]

theorem serializeRows_ne_nil (rs : List (List PyStr)) : serializeRows rs ≠ [] := by
  simp [serializeRows]

/-- The store written by `add_job` is well formed again. -/
theorem WFStore_add (store : Option PyStr) (now : PyStr) (h : WFStore store)
    (hnow : ',' ∉ now ∧ '\n' ∉ now) : WFStore (some (add_job store now).1) := by
  right
  rw [parseRows_add store now h hnow]
  rfl

/-- Loading after `add_job` sees the old jobs unchanged followed by the new
`pending` job with empty `updated_at`. -/
theorem loadJobs_add (store : Option PyStr) (now : PyStr) (h : WFStore store)
    (hnow : ',' ∉ now ∧ '\n' ∉ now) :
    loadJobs (some (add_job store now).1) =
      loadJobs store ++
        [mkJob (natToStr ((add_job store now).2)) pendingS now []] := by
  rw [loadJobs_of_WF _ (WFStore_add store now h hnow), loadJobs_of_WF store h]
  have hne : (add_job store now).1 ≠ [] := by
    rw [add_job_eq store now h]
    exact serializeRows_ne_nil _
  simp only [parseDataRows]
  rw [if_neg hne, parseRows_add store now h hnow]
  simp only [List.tail_cons, List.map_append, List.map_cons, List.map_nil]
  rw [add_job_eq store now h]
  rw [rowToJob_eq]
  rfl

end FilesQ

namespace SqliteQ

theorem minIdRow_eq_none (l : List SqlJob) : minIdRow l = none ↔ l = [] := by
  cases l with
  | nil => simp [minIdRow]
  | cons r rest =>
    simp only [minIdRow]
    cases h : minIdRow rest with
    | none => simp
    | some m => by_cases hle : r.id ≤ m.id <;> simp [hle]

theorem minIdRow_mem (l : List SqlJob) (r : SqlJob) (h : minIdRow l = some r) : r ∈ l := by
  induction l generalizing r with
  | nil => simp [minIdRow] at h
  | cons x rest ih =>
    simp only [minIdRow] at h
    cases hm : minIdRow rest with
    | none =>
      rw [hm] at h
      simp only [Option.some.injEq] at h
      exact h ▸ List.mem_cons_self x rest
    | some m =>
      rw [hm] at h
      dsimp only at h
      by_cases hle : x.id ≤ m.id
      · rw [if_pos hle] at h
        simp only [Option.some.injEq] at h
        exact h ▸ List.mem_cons_self x rest
      · rw [if_neg hle] at h
        simp only [Option.some.injEq] at h
        exact List.mem_cons_of_mem x (h ▸ ih m hm)

theorem minIdRow_le (l : List SqlJob) (r : SqlJob) (h : minIdRow l = some r) :
    ∀ x ∈ l, r.id ≤ x.id := by
  induction l generalizing r with
  | nil => simp [minIdRow] at h
  | cons y rest ih =>
    simp only [minIdRow] at h
    intro x hx
    cases hm : minIdRow rest with
    | none =>
      have : rest = [] := (minIdRow_eq_none rest).mp hm
      subst this
      rw [hm] at h
      simp only [Option.some.injEq] at h
      subst h
      rcases List.mem_cons.mp hx with rfl | hx
      · exact le_refl _
      · simp at hx
    | some m =>
      rw [hm] at h
      dsimp only at h
      rcases List.mem_cons.mp hx with rfl | hx
      · by_cases hle : x.id ≤ m.id
        · rw [if_pos hle] at h
          simp only [Option.some.injEq] at h
          subst h; exact le_refl _
        · rw [if_neg hle] at h
          simp only [Option.some.injEq] at h
          subst h
          omega
      · by_cases hle : y.id ≤ m.id
        · rw [if_pos hle] at h
          simp only [Option.some.injEq] at h
          subst h
          exact le_trans hle (ih m hm x hx)
        · rw [if_neg hle] at h
          simp only [Option.some.injEq] at h
          subst h
          exact ih m hm x hx
end SqliteQ

namespace SqliteQ

/-- The `PRIMARY KEY` invariant: ids are unique. -/
def NodupIds (t : Table) : Prop := (t.rows.map SqlJob.id).Nodup

/-- The in-place update of a claim, as applied to every row. -/
def claimUpd (j : Nat) (now : String) (x : SqlJob) : SqlJob :=
  if x.id = j then { x with status := "in_progress", updated_at := some now } else x

theorem claimUpd_id (j : Nat) (now : String) (x : SqlJob) : (claimUpd j now x).id = x.id := by
  unfold claimUpd
  by_cases h : x.id = j <;> simp [h]

theorem find?_map_of_id_eq (f : SqlJob → SqlJob) (hf : ∀ x, (f x).id = x.id)
    (rows : List SqlJob) (j : Nat) :
    (rows.map f).find? (fun x => x.id = j) = (rows.find? (fun x => x.id = j)).map f := by
  induction rows with
  | nil => rfl
  | cons x rest ih =>
    by_cases hx : x.id = j
    · rw [List.map_cons, List.find?_cons_of_pos, List.find?_cons_of_pos]
      · rfl
      · simp [hx]
      · simp [hf, hx]
    · rw [List.map_cons, List.find?_cons_of_neg, List.find?_cons_of_neg, ih]
      · simp [hx]
      · simp [hf, hx]

theorem find?_eq_of_nodup (rows : List SqlJob) (hnd : (rows.map SqlJob.id).Nodup)
    (r : SqlJob) (hr : r ∈ rows) :
    rows.find? (fun x => x.id = r.id) = some r := by
  induction rows with
  | nil => simp at hr
  | cons x rest ih =>
    rw [List.map_cons, List.nodup_cons] at hnd
    rcases List.mem_cons.mp hr with rfl | hr
    · rw [List.find?_cons_of_pos]
      simp
    · have hx : x.id ≠ r.id := by
        intro he
        exact hnd.1 (he ▸ List.mem_map_of_mem SqlJob.id hr)
      rw [List.find?_cons_of_neg]
      · exact ih hnd.2 hr
      · simp [hx]

theorem fetch_spec_none (t : Table) (now : String) (t1 : Table)
    (h : fetch_pending_job t now = (t1, none)) :
    t1 = t ∧ ∀ r ∈ t.rows, r.status ≠ "pending" := by
  unfold fetch_pending_job at h
  cases hm : minIdRow (t.rows.filter fun r => r.status = "pending") with
  | none =>
    rw [hm] at h
    simp only [Prod.mk.injEq] at h
    refine ⟨h.1.symm, fun r hr hst => ?_⟩
    have : t.rows.filter (fun r => decide (r.status = "pending")) = [] :=
      (minIdRow_eq_none _).mp hm
    have hmem : r ∈ t.rows.filter (fun r => decide (r.status = "pending")) :=
      List.mem_filter.mpr ⟨hr, by simp [hst]⟩
    rw [this] at hmem
    simp at hmem
  | some r =>
    rw [hm] at h
    dsimp only at h
    simp at h

theorem fetch_spec_some (t : Table) (now : String) (t1 : Table) (j : Nat)
    (h : fetch_pending_job t now = (t1, some j)) :
    ∃ r ∈ t.rows, r.status = "pending" ∧ r.id = j ∧
      (∀ x ∈ t.rows, x.status = "pending" → j ≤ x.id) ∧
      t1.seq = t.seq ∧ t1.rows = t.rows.map (claimUpd j now) := by
  unfold fetch_pending_job at h
  cases hm : minIdRow (t.rows.filter fun r => r.status = "pending") with
  | none =>
    rw [hm] at h
    simp at h
  | some r =>
    rw [hm] at h
    dsimp only at h
    simp only [Prod.mk.injEq, Option.some.injEq] at h
    obtain ⟨ht1, hj⟩ := h
    have hrmem := minIdRow_mem _ _ hm
    have hrp : r.status = "pending" := by
      have := (List.mem_filter.mp hrmem).2
      simpa using this
    refine ⟨r, (List.mem_filter.mp hrmem).1, hrp, hj, ?_, ?_, ?_⟩
    · intro x hx hxp
      rw [← hj]
      exact minIdRow_le _ _ hm x (List.mem_filter.mpr ⟨hx, by simp [hxp]⟩)
    · rw [← ht1]
    · rw [← ht1, ← hj]
      rfl

theorem rows_ids_after_claim (t : Table) (now : String) (t1 : Table) (r? : Option Nat)
    (h : fetch_pending_job t now = (t1, r?)) :
    t1.rows.map SqlJob.id = t.rows.map SqlJob.id ∧ t1.seq = t.seq := by
  cases r? with
  | none =>
    obtain ⟨rfl, -⟩ := fetch_spec_none t now t1 h
    exact ⟨rfl, rfl⟩
  | some j =>
    obtain ⟨r, -, -, -, -, hseq, hrows⟩ := fetch_spec_some t now t1 j h
    constructor
    · rw [hrows, List.map_map]
      exact List.map_congr_left (fun x _ => claimUpd_id j now x)
    · exact hseq

theorem statusOf_after_claim_other (t : Table) (now : String) (t1 : Table) (j : Nat)
    (h : fetch_pending_job t now = (t1, some j)) (i : Nat) (hij : i ≠ j) :
    statusOf t1 i = statusOf t i := by
  obtain ⟨r, -, -, -, -, -, hrows⟩ := fetch_spec_some t now t1 j h
  unfold statusOf
  rw [hrows, find?_map_of_id_eq (claimUpd j now) (claimUpd_id j now)]
  cases hf : t.rows.find? (fun x => x.id = i) with
  | none => rfl
  | some q =>
    have hq : q.id = i := by simpa using List.find?_some hf
    simp [claimUpd, hq, hij]

theorem statusOf_after_claim_self (t : Table) (now : String) (t1 : Table) (j : Nat)
    (hnd : NodupIds t) (h : fetch_pending_job t now = (t1, some j)) :
    statusOf t j = some "pending" ∧ statusOf t1 j = some "in_progress" := by
  obtain ⟨r, hrmem, hrp, hrid, -, -, hrows⟩ := fetch_spec_some t now t1 j h
  have hfind : t.rows.find? (fun x => x.id = j) = some r := by
    rw [← hrid]
    exact find?_eq_of_nodup t.rows hnd r hrmem
  constructor
  · unfold statusOf
    rw [hfind]
    simp [hrp]
  · unfold statusOf
    rw [hrows, find?_map_of_id_eq (claimUpd j now) (claimUpd_id j now), hfind]
    simp [claimUpd, hrid]

/-- A claim never returns a job that is not `pending`, and it cannot make a
job `pending`. -/
theorem claim_preserves_nonpending (t : Table) (now : String) (j : Nat)
    (hnd : NodupIds t) (hj : statusOf t j ≠ some "pending") :
    (∀ t1 k, fetch_pending_job t now = (t1, some k) → k ≠ j) ∧
    statusOf (fetch_pending_job t now).1 j ≠ some "pending" := by
  constructor
  · intro t1 k hf he
    subst he
    exact hj (statusOf_after_claim_self t now t1 k hnd hf).1
  · cases hres : fetch_pending_job t now with
    | mk t1 r? =>
      cases r? with
      | none =>
        obtain ⟨rfl, -⟩ := fetch_spec_none t now t1 hres
        simpa using hj
      | some k =>
        by_cases hkj : k = j
        · subst hkj
          exact absurd (statusOf_after_claim_self t now t1 k hnd hres).1 hj
        · simp only
          rw [statusOf_after_claim_other t now t1 k hres j (Ne.symm hkj)]
          exact hj

theorem NodupIds_after_claim (t : Table) (now : String) (hnd : NodupIds t) :
    NodupIds (fetch_pending_job t now).1 := by
  cases hres : fetch_pending_job t now with
  | mk t1 r? =>
    have := (rows_ids_after_claim t now t1 r? hres).1
    unfold NodupIds
    simp only
    rw [this]
    exact hnd

/-- Once a job is not `pending`, no sequence of further claim attempts ever
returns it. -/
theorem claimSeq_not_mem (t : Table) (nows : List String) (j : Nat)
    (hnd : NodupIds t) (hj : statusOf t j ≠ some "pending") :
    j ∉ (claimSeq t nows).2 := by
  induction nows generalizing t with
  | nil => simp [claimSeq]
  | cons now rest ih =>
    simp only [claimSeq]
    cases hres : fetch_pending_job t now with
    | mk t1 r? =>
      have hpres := claim_preserves_nonpending t now j hnd hj
      have hnd1 : NodupIds t1 := by
        have := NodupIds_after_claim t now hnd
        rwa [hres] at this
      have hj1 : statusOf t1 j ≠ some "pending" := by
        have := hpres.2
        rwa [hres] at this
      cases r? with
      | none => exact ih t1 hnd1 hj1
      | some k =>
        dsimp only
        intro hmem
        rcases List.mem_cons.mp hmem with rfl | hmem
        · exact hpres.1 t1 j hres rfl
        · exact ih t1 hnd1 hj1 hmem

end SqliteQ

/-! ## Claim theorems -/

/-- C10: `mark_done(job_id)` is unconditional: it sets `status = 'done'`
and `updated_at = now` on every row with that id regardless of the row's
current status (so even a `pending` row transitions directly to `done`),
leaves all other rows unchanged, and when no row with that id exists it
leaves the table exactly as it was and returns without raising. -/
theorem C10_mark_done_unconditional (t : SqliteQ.Table) (jid : Nat) (now : String) :
    (∀ r ∈ t.rows, r.id = jid →
      ({ r with status := "done", updated_at := some now } : SqliteQ.SqlJob) ∈
        (SqliteQ.mark_done t jid now).rows) ∧
    (∀ r ∈ t.rows, r.id ≠ jid → r ∈ (SqliteQ.mark_done t jid now).rows) ∧
    ((∀ r ∈ t.rows, r.id ≠ jid) → SqliteQ.mark_done t jid now = t) := by
  refine ⟨?_, ?_, ?_⟩
  · intro r hr hid
    unfold SqliteQ.mark_done
    simp only
    have := List.mem_map_of_mem
      (fun x => if x.id = jid then
        ({ x with status := "done", updated_at := some now } : SqliteQ.SqlJob) else x) hr
    simpa only [if_pos hid] using this
  · intro r hr hid
    unfold SqliteQ.mark_done
    simp only
    have := List.mem_map_of_mem
      (fun x => if x.id = jid then
        ({ x with status := "done", updated_at := some now } : SqliteQ.SqlJob) else x) hr
    simpa only [if_neg hid] using this
  · intro hall
    unfold SqliteQ.mark_done
    have : t.rows.map (fun x => if x.id = jid then
        ({ x with status := "done", updated_at := some now } : SqliteQ.SqlJob) else x) = t.rows := by
      rw [List.map_congr_left (fun x hx => if_neg (hall x hx))]
      exact List.map_id' t.rows
    rw [this]

/-- Witness for C10: in a table holding one `pending` job with id 1,
`mark_done 1` moves it straight to `done` (skipping `in_progress`), and
`mark_done 7` (no such id) leaves the table unchanged. -/
theorem C10_witness :
    (({ id := 1, status := "done", created_at := "T", updated_at := some "U" } : SqliteQ.SqlJob) ∈
      (SqliteQ.mark_done ⟨1, [⟨1, "pending", "T", none⟩]⟩ 1 "U").rows) ∧
    SqliteQ.mark_done ⟨1, [⟨1, "pending", "T", none⟩]⟩ 7 "U" = ⟨1, [⟨1, "pending", "T", none⟩]⟩ := by
  constructor
  · exact (C10_mark_done_unconditional ⟨1, [⟨1, "pending", "T", none⟩]⟩ 1 "U").1
      ⟨1, "pending", "T", none⟩ (List.mem_cons_self _ _) rfl
  · exact (C10_mark_done_unconditional ⟨1, [⟨1, "pending", "T", none⟩]⟩ 7 "U").2.2
      (by intro r hr; rcases List.mem_cons.mp hr with rfl | hr
          · decide
          · simp at hr)

/-- C8: `load()` on a not-yet-existing store is callable and returns the
empty job sequence without raising, and the store is lazily created on the
producer's first write: the flat-file `add_job` starting from a missing
file produces content that loads as exactly the one new `pending` job, and
the transactional producer's `init_db`/`add_job` create the table and
insert the first `pending` row. -/
theorem C8_load_missing_store (now : PyStr) (ts : String)
    (hnow : ',' ∉ now ∧ '\n' ∉ now) :
    FilesQ.read_queue_with_lock none = (none, []) ∧
    FilesQ.loadJobs (some (FilesQ.add_job none now).1) =
      [FilesQ.mkJob (natToStr 1) FilesQ.pendingS now []] ∧
    SqliteQ.init_db none = SqliteQ.emptyTable ∧
    SqliteQ.add_job none ts = (⟨1, [⟨1, "pending", ts, none⟩]⟩, 1) := by
  refine ⟨rfl, ?_, rfl, rfl⟩
  rw [FilesQ.loadJobs_add none now trivial hnow]
  rfl

/-- Witness for C8 at the concrete timestamp `T`. -/
theorem C8_witness :
    FilesQ.read_queue_with_lock none = (none, []) ∧
    FilesQ.loadJobs (some (FilesQ.add_job none (pys "T")).1) =
      [FilesQ.mkJob (natToStr 1) FilesQ.pendingS (pys "T") []] ∧
    SqliteQ.init_db none = SqliteQ.emptyTable ∧
    SqliteQ.add_job none "T" = (⟨1, [⟨1, "pending", "T", none⟩]⟩, 1) :=
  C8_load_missing_store (pys "T") "T" (by decide)

theorem except_bind_ok {α β : Type} (a : α) (f : α → Except String β) :
    (Except.ok a >>= f : Except String β) = f a := rfl

theorem except_bind_error {α β : Type} (e : String) (f : α → Except String β) :
    ((Except.error e : Except String α) >>= f) = Except.error e := rfl

theorem except_map_ok {α β : Type} (a : α) (f : α → β) :
    (f <$> (Except.ok a : Except String α)) = Except.ok (f a) := rfl

theorem except_map_error {α β : Type} (e : String) (f : α → β) :
    (f <$> (Except.error e : Except String α)) = Except.error e := rfl

/-- C4 counterexample: when the claim succeeds and the processing callback
(`consume_job`, step 4) raises, the `except Exception` at the top of the
loop iteration catches it all the same — the iteration result is the caught
5-second backoff, not a propagating exception, because `consume_job(job)`
sits inside the same `try:` as the storage steps. -/
theorem C4_counterexample :
    SqliteQ.worker_iteration (Except.ok (some 1))
      (fun _ => Except.error "boom") (fun _ => Except.ok ()) =
      Except.ok (SqliteQ.IterResult.errorCaught 5) ∧
    ∀ e : String, SqliteQ.worker_iteration (Except.ok (some 1))
      (fun _ => Except.error "boom") (fun _ => Except.ok ()) ≠ Except.error e := by
  constructor
  · rfl
  · intro e h
    rw [show SqliteQ.worker_iteration (Except.ok (some 1))
        (fun _ => Except.error "boom") (fun _ => Except.ok ()) =
        Except.ok (SqliteQ.IterResult.errorCaught 5) from rfl] at h
    exact Except.noConfusion h

/-- C4 as amended: every exception raised inside a `worker_loop` iteration —
whether by the storage operations (fetch, mark-done) or by the processing
callback of step 4 — is caught at the top of the iteration and turns into
the fixed 5-second backoff; the iteration never lets an exception
propagate (the loop is never fatal). -/
theorem C4_amended_all_exceptions_caught (fetch : Except String (Option Nat))
    (process markDone : Nat → Except String Unit) :
    (∀ e, fetch = Except.error e →
      SqliteQ.worker_iteration fetch process markDone =
        Except.ok (SqliteQ.IterResult.errorCaught 5)) ∧
    (∀ j e, fetch = Except.ok (some j) → process j = Except.error e →
      SqliteQ.worker_iteration fetch process markDone =
        Except.ok (SqliteQ.IterResult.errorCaught 5)) ∧
    (∀ j e, fetch = Except.ok (some j) → process j = Except.ok () →
      markDone j = Except.error e →
      SqliteQ.worker_iteration fetch process markDone =
        Except.ok (SqliteQ.IterResult.errorCaught 5)) ∧
    (∃ r, SqliteQ.worker_iteration fetch process markDone = Except.ok r) := by
  refine ⟨?_, ?_, ?_, ?_⟩
  · intro e he
    subst he
    rfl
  · intro j e hf hp
    subst hf
    simp only [SqliteQ.worker_iteration, SqliteQ.try_body, except_bind_ok, hp,
      except_bind_error]
  · intro j e hf hp hm
    subst hf
    simp only [SqliteQ.worker_iteration, SqliteQ.try_body, except_bind_ok, hp, hm,
      except_bind_error, except_map_error]
  · unfold SqliteQ.worker_iteration
    cases SqliteQ.try_body fetch process markDone with
    | ok r => exact ⟨r, rfl⟩
    | error e => exact ⟨SqliteQ.IterResult.errorCaught 5, rfl⟩

/-- Witness for the amended C4: a failing mark-done step and a failing
processing callback each produce the caught 5-second backoff. -/
theorem C4_witness :
    SqliteQ.worker_iteration (Except.ok (some 2))
        (fun _ => Except.ok ()) (fun _ => Except.error "disk") =
      Except.ok (SqliteQ.IterResult.errorCaught 5) ∧
    SqliteQ.worker_iteration (Except.error "lock")
        (fun _ => Except.ok ()) (fun _ => Except.ok ()) =
      Except.ok (SqliteQ.IterResult.errorCaught 5) := by
  constructor
  · exact (C4_amended_all_exceptions_caught (Except.ok (some 2))
      (fun _ => Except.ok ()) (fun _ => Except.error "disk")).2.2.1 2 "disk" rfl rfl rfl
  · exact (C4_amended_all_exceptions_caught (Except.error "lock")
      (fun _ => Except.ok ()) (fun _ => Except.ok ())).1 "lock" rfl

namespace FilesQ

/-- A field value that survives the bare-delimiter serialization: no comma,
no newline. -/
def fieldOK (s : PyStr) : Prop := ',' ∉ s ∧ '\n' ∉ s

/-- A job dict of the canonical shape with serializable field values. -/
def canonJob (j : PyDict) : Prop :=
  ∃ a b c d, j = mkJob a b c d ∧ fieldOK a ∧ fieldOK b ∧ fieldOK c ∧ fieldOK d

theorem fieldOK_getD (row : List PyStr) (k : Nat)
    (h : ∀ f ∈ row, ',' ∉ f ∧ '\n' ∉ f) : fieldOK (row.getD k []) := by
  by_cases hk : k < row.length
  · rw [List.getD_eq_getElem row [] hk]
    exact h _ (List.getElem_mem hk)
  · rw [List.getD_eq_default row [] (by omega)]
    exact ⟨by simp, by simp⟩

/-- Every job a well-formed store loads is canonical with serializable
fields. -/
theorem canonJob_of_load (content : PyStr)
    (h : (parseRows content).head? = some headerDefault) :
    ∀ j ∈ loadJobs (some content), canonJob j := by
  intro j hj
  rw [loadJobs_of_WF (some content) (Or.inr h)] at hj
  rcases List.mem_map.mp hj with ⟨row, hrow, rfl⟩
  have hfields : ∀ f ∈ row, ',' ∉ f ∧ '\n' ∉ f := by
    simp only [parseDataRows] at hrow
    by_cases hc : content = []
    · rw [if_pos hc] at hrow; simp at hrow
    · rw [if_neg hc] at hrow
      exact (parseRows_fields content row (List.mem_of_mem_tail hrow)).2
  rw [rowToJob_eq]
  exact ⟨_, _, _, _, rfl, fieldOK_getD row 0 hfields, fieldOK_getD row 1 hfields,
    fieldOK_getD row 2 hfields, fieldOK_getD row 3 hfields⟩

/-- Parsing the content written by `write_queue_with_lock` from canonical
jobs recovers the four serialized fields of each job. -/
theorem parseRows_write (jobs : List PyDict) (h : ∀ j ∈ jobs, canonJob j) :
    parseRows (write_queue_with_lock headerDefault jobs) =
      headerDefault :: jobs.map (fun j =>
        [dictGet j idK, dictGet j statusK, dictGet j createdK, dictGet j updatedK]) := by
  rw [write_queue_eq_serialize]
  apply parseRows_serializeRows
  · simp
  · intro r hr
    rcases List.mem_cons.mp hr with rfl | hr
    · simp [headerDefault]
    · rcases List.mem_map.mp hr with ⟨j, -, rfl⟩
      simp
  · intro r hr f hf
    rcases List.mem_cons.mp hr with rfl | hr
    · exact headerDefault_fields f hf
    · rcases List.mem_map.mp hr with ⟨j, hj, rfl⟩
      obtain ⟨a, b, c, d, rfl, ha, hb, hc, hd⟩ := h j hj
      rw [dictGet_mkJob_id, dictGet_mkJob_status, dictGet_mkJob_created,
        dictGet_mkJob_updated] at hf
      rcases List.mem_cons.mp hf with rfl | hf
      · exact ha
      · rcases List.mem_cons.mp hf with rfl | hf
        · exact hb
        · rcases List.mem_cons.mp hf with rfl | hf
          · exact hc
          · rcases List.mem_cons.mp hf with rfl | hf
            · exact hd
            · simp at hf

/-- Writing canonical jobs and reading the file back yields exactly the
same jobs under the same header. -/
theorem read_write_roundtrip (jobs : List PyDict) (h : ∀ j ∈ jobs, canonJob j) :
    read_queue_with_lock (some (write_queue_with_lock headerDefault jobs)) =
      (some headerDefault, jobs) := by
  have hparse := parseRows_write jobs h
  have hhead : (parseRows (write_queue_with_lock headerDefault jobs)).head? =
      some headerDefault := by rw [hparse]; rfl
  simp only [read_queue_with_lock]
  rw [readContent_of_WF _ hhead, hparse]
  simp only [List.tail_cons, List.map_map, Prod.mk.injEq, true_and]
  rw [List.map_congr_left (g := id), List.map_id]
  intro j hj
  obtain ⟨a, b, c, d, rfl, -, -, -, -⟩ := h j hj
  simp only [Function.comp_apply, id_eq]
  rw [dictGet_mkJob_id, dictGet_mkJob_status, dictGet_mkJob_created, dictGet_mkJob_updated,
    rowToJob_eq]
  rfl

end FilesQ

/-- C9: serializing a list of canonical jobs whose four field values
contain no comma and no newline with `write_queue_with_lock` and loading
the file back yields the same jobs (and the same canonical header); the
precondition is necessary: a field with a comma in it (`"a,b"` as
`created_at`) does not survive the bare-comma join/split. -/
theorem C9_write_read_roundtrip :
    (∀ jobs : List PyDict, (∀ j ∈ jobs, FilesQ.canonJob j) →
      FilesQ.read_queue_with_lock
          (some (FilesQ.write_queue_with_lock FilesQ.headerDefault jobs)) =
        (some FilesQ.headerDefault, jobs)) ∧
    FilesQ.loadJobs (some (FilesQ.write_queue_with_lock FilesQ.headerDefault
        [FilesQ.mkJob (pys "1") FilesQ.pendingS (pys "a,b") []])) ≠
      [FilesQ.mkJob (pys "1") FilesQ.pendingS (pys "a,b") []] := by
  constructor
  · exact fun jobs h => FilesQ.read_write_roundtrip jobs h
  · decide

/-- Witness for C9 on a one-job queue with comma-free fields. -/
theorem C9_witness :
    FilesQ.read_queue_with_lock (some (FilesQ.write_queue_with_lock FilesQ.headerDefault
        [FilesQ.mkJob (pys "1") FilesQ.pendingS (pys "T") []])) =
      (some FilesQ.headerDefault, [FilesQ.mkJob (pys "1") FilesQ.pendingS (pys "T") []]) := by
  apply C9_write_read_roundtrip.1
  intro j hj
  rcases List.mem_cons.mp hj with rfl | hj
  · exact ⟨pys "1", FilesQ.pendingS, pys "T", [], rfl,
      ⟨by decide, by decide⟩, ⟨by decide, by decide⟩, ⟨by decide, by decide⟩,
      ⟨by decide, by decide⟩⟩
  · simp at hj

/-- C6: on any well-formed queue state, after `add_job` (submit) returns,
loading the persisted store — which is all a fresh process after a restart
can do — returns every previously existing job unchanged followed by the
new job with status `pending`, `created_at = now` and empty `updated_at`;
likewise the transactional `add_job` appends exactly the new `pending` row
with NULL `updated_at`. -/
theorem C6_submit_durable (store : Option PyStr) (now : PyStr)
    (hWF : FilesQ.WFStore store) (hnow : FilesQ.fieldOK now) :
    FilesQ.loadJobs (some (FilesQ.add_job store now).1) =
      FilesQ.loadJobs store ++
        [FilesQ.mkJob (natToStr ((FilesQ.add_job store now).2)) FilesQ.pendingS now []] ∧
    (∀ (t : SqliteQ.Table) (ts : String),
      ((SqliteQ.add_job (some t) ts).1).rows =
        t.rows ++ [⟨t.seq + 1, "pending", ts, none⟩]) := by
  exact ⟨FilesQ.loadJobs_add store now hWF hnow, fun t ts => rfl⟩

/-- Witness for C6: submitting to the one-job store written by a first
submit appends job 2 after the untouched job 1. -/
theorem C6_witness :
    FilesQ.loadJobs (some (FilesQ.add_job (some (FilesQ.add_job none (pys "T")).1) (pys "U")).1) =
      [FilesQ.mkJob (natToStr 1) FilesQ.pendingS (pys "T") [],
       FilesQ.mkJob (natToStr 2) FilesQ.pendingS (pys "U") []] ∧
    ((SqliteQ.add_job (some SqliteQ.emptyTable) "T").1).rows =
      [⟨1, "pending", "T", none⟩] := by
  have hWF1 : FilesQ.WFStore (some (FilesQ.add_job none (pys "T")).1) :=
    FilesQ.WFStore_add none (pys "T") trivial (by decide)
  have h := C6_submit_durable (some (FilesQ.add_job none (pys "T")).1) (pys "U")
    hWF1 ⟨by decide, by decide⟩
  constructor
  · rw [h.1]
    decide
  · exact (C6_submit_durable none (pys "X") trivial ⟨by decide, by decide⟩).2 SqliteQ.emptyTable "T"

namespace FilesQ

/-- The id `add_job` assigns is the number of loaded jobs plus one. -/
theorem add_job_id (store : Option PyStr) (now : PyStr) (hWF : WFStore store) :
    (add_job store now).2 = (loadJobs store).length + 1 := by
  rw [add_job_eq store now hWF, loadJobs_of_WF store hWF]
  simp

end FilesQ

/-- C5: three submits on an empty queue assign ids 1, 2, 3 in order and
each new job is created `pending`, for both backends; in general the
flat-file backend assigns `count of existing data rows + 1` (the number of
loaded jobs plus one) and the transactional backend the next value of the
auto-increment counter, and the two agree whenever the counter equals the
row count — which is an invariant of a store in which jobs are never
deleted, and no operation of this program deletes a job. -/
theorem C5_id_assignment (t1 t2 t3 : PyStr)
    (h1 : FilesQ.fieldOK t1) (h2 : FilesQ.fieldOK t2) (h3 : FilesQ.fieldOK t3) :
    ((FilesQ.add_job none t1).2 = 1 ∧
     (FilesQ.add_job (some (FilesQ.add_job none t1).1) t2).2 = 2 ∧
     (FilesQ.add_job (some (FilesQ.add_job (some (FilesQ.add_job none t1).1) t2).1) t3).2 = 3 ∧
     FilesQ.loadJobs
        (some (FilesQ.add_job (some (FilesQ.add_job (some (FilesQ.add_job none t1).1) t2).1) t3).1) =
       [FilesQ.mkJob (natToStr 1) FilesQ.pendingS t1 [],
        FilesQ.mkJob (natToStr 2) FilesQ.pendingS t2 [],
        FilesQ.mkJob (natToStr 3) FilesQ.pendingS t3 []]) ∧
    (∀ s1 s2 s3 : String,
      (SqliteQ.add_job none s1).2 = 1 ∧
      (SqliteQ.add_job (some (SqliteQ.add_job none s1).1) s2).2 = 2 ∧
      (SqliteQ.add_job (some (SqliteQ.add_job (some (SqliteQ.add_job none s1).1) s2).1) s3).2 = 3 ∧
      (SqliteQ.add_job (some (SqliteQ.add_job (some (SqliteQ.add_job none s1).1) s2).1) s3).1.rows =
        [⟨1, "pending", s1, none⟩, ⟨2, "pending", s2, none⟩, ⟨3, "pending", s3, none⟩]) ∧
    (∀ (store : Option PyStr) (now : PyStr), FilesQ.WFStore store →
      (FilesQ.add_job store now).2 = (FilesQ.loadJobs store).length + 1) ∧
    (∀ (t : SqliteQ.Table) (ts : String),
      (SqliteQ.add_job (some t) ts).2 = t.seq + 1 ∧
      (t.seq = t.rows.length →
        (SqliteQ.add_job (some t) ts).2 = t.rows.length + 1 ∧
        (SqliteQ.add_job (some t) ts).1.seq = ((SqliteQ.add_job (some t) ts).1).rows.length)) := by
  have hWF1 : FilesQ.WFStore (some (FilesQ.add_job none t1).1) :=
    FilesQ.WFStore_add none t1 trivial h1
  have hWF2 : FilesQ.WFStore (some (FilesQ.add_job (some (FilesQ.add_job none t1).1) t2).1) :=
    FilesQ.WFStore_add _ t2 hWF1 h2
  have hl1 := FilesQ.loadJobs_add none t1 trivial h1
  have hl2 := FilesQ.loadJobs_add _ t2 hWF1 h2
  have hl3 := FilesQ.loadJobs_add _ t3 hWF2 h3
  have hid1 : (FilesQ.add_job none t1).2 = 1 := rfl
  have hid2 : (FilesQ.add_job (some (FilesQ.add_job none t1).1) t2).2 = 2 := by
    rw [FilesQ.add_job_id _ t2 hWF1, hl1, hid1]
    rfl
  have hid3 :
      (FilesQ.add_job (some (FilesQ.add_job (some (FilesQ.add_job none t1).1) t2).1) t3).2 = 3 := by
    rw [FilesQ.add_job_id _ t3 hWF2, hl2, hid2, hl1, hid1]
    rfl
  refine ⟨⟨hid1, hid2, hid3, ?_⟩, ?_, ?_, ?_⟩
  · rw [hl3, hl2, hl1, hid1, hid2, hid3]
    rfl
  · intro s1 s2 s3
    exact ⟨rfl, rfl, rfl, rfl⟩
  · exact fun store now hWF => FilesQ.add_job_id store now hWF
  · intro t ts
    refine ⟨rfl, fun hseq => ⟨by simp [SqliteQ.add_job, SqliteQ.init_db, hseq], ?_⟩⟩
    simp [SqliteQ.add_job, SqliteQ.init_db, hseq]

/-- Witness for C5 at the concrete timestamps `T1`, `T2`, `T3`. -/
theorem C5_witness :
    (FilesQ.add_job (some (FilesQ.add_job (some (FilesQ.add_job none (pys "T1")).1)
        (pys "T2")).1) (pys "T3")).2 = 3 ∧
    FilesQ.loadJobs
        (some (FilesQ.add_job (some (FilesQ.add_job (some (FilesQ.add_job none (pys "T1")).1)
          (pys "T2")).1) (pys "T3")).1) =
      [FilesQ.mkJob (natToStr 1) FilesQ.pendingS (pys "T1") [],
       FilesQ.mkJob (natToStr 2) FilesQ.pendingS (pys "T2") [],
       FilesQ.mkJob (natToStr 3) FilesQ.pendingS (pys "T3") []] ∧
    (SqliteQ.add_job (some (SqliteQ.add_job (some (SqliteQ.add_job none "S1").1) "S2").1) "S3").1.rows =
      [⟨1, "pending", "S1", none⟩, ⟨2, "pending", "S2", none⟩, ⟨3, "pending", "S3", none⟩] := by
  have h := C5_id_assignment (pys "T1") (pys "T2") (pys "T3")
    ⟨by decide, by decide⟩ ⟨by decide, by decide⟩ ⟨by decide, by decide⟩
  exact ⟨h.1.2.2.1, h.1.2.2.2, (h.2.1 "S1" "S2" "S3").2.2.2⟩

namespace FilesQ

theorem getD_set_ne (l : List PyDict) (v : PyDict) (i k : Nat) (h : k ≠ i) :
    (l.set k v).getD i [] = l.getD i [] := by
  rw [List.getD_eq_getElem?_getD, List.getD_eq_getElem?_getD, List.getElem?_set_ne h]

theorem getD_set_eq (l : List PyDict) (v : PyDict) (i : Nat) (h : i < l.length) :
    (l.set i v).getD i [] = v := by
  rw [List.getD_eq_getElem?_getD, List.getElem?_set]
  simp [h]

/-- The claiming branch of `claim_step`, written out: with a well-formed
store and the first pending job at index `i`, the claimed dict is the job
at `i` with `status := in_progress, updated_at := now`, and the file is
rewritten with that job replaced in place. -/
theorem claim_step_eq (content now : PyStr)
    (hWFC : (parseRows content).head? = some headerDefault) (i : Nat)
    (hidx : List.findIdx? (fun job => dictGet job statusK = pendingS)
      (loadJobs (some content)) = some i) :
    claim_step content now =
      (write_queue_with_lock headerDefault ((loadJobs (some content)).set i
        (dictSet (dictSet ((loadJobs (some content)).getD i []) statusK inProgressS)
          updatedK now)),
       some (i, dictSet (dictSet ((loadJobs (some content)).getD i []) statusK inProgressS)
          updatedK now)) := by
  unfold claim_step
  have hread : readContent content =
      (headerDefault, (parseRows content).tail.map (rowToJob headerDefault)) :=
    readContent_of_WF content hWFC
  have hjobs : loadJobs (some content) =
      (parseRows content).tail.map (rowToJob headerDefault) := by
    simp only [loadJobs, read_queue_with_lock, hread]
  rw [hjobs] at hidx
  rw [hread]
  simp only
  rw [hidx]
  rw [← hjobs]

/-- The no-pending branch of `claim_step`: nothing is written. -/
theorem claim_step_none_eq (content now : PyStr)
    (hWFC : (parseRows content).head? = some headerDefault)
    (hidx : List.findIdx? (fun job => dictGet job statusK = pendingS)
      (loadJobs (some content)) = none) :
    claim_step content now = (content, none) := by
  unfold claim_step
  have hread : readContent content =
      (headerDefault, (parseRows content).tail.map (rowToJob headerDefault)) :=
    readContent_of_WF content hWFC
  have hjobs : loadJobs (some content) =
      (parseRows content).tail.map (rowToJob headerDefault) := by
    simp only [loadJobs, read_queue_with_lock, hread]
  rw [hjobs] at hidx
  rw [hread]
  simp only
  rw [hidx]

/-- The dict mutated by a claim is again canonical when `now` is
serializable. -/
theorem canonJob_claimed (j : PyDict) (now : PyStr) (hj : canonJob j)
    (hnow : fieldOK now) :
    canonJob (dictSet (dictSet j statusK inProgressS) updatedK now) := by
  obtain ⟨a, b, c, d, rfl, ha, hb, hc, hd⟩ := hj
  rw [dictSet_mkJob_status, dictSet_mkJob_updated]
  exact ⟨a, inProgressS, c, now, rfl, ha, ⟨by decide, by decide⟩, hc, hnow⟩

/-- After a successful claim the new store is well formed again, and loads
as the old jobs with the claimed dict set at the claimed index. -/
theorem claim_step_roundtrip (content now : PyStr)
    (hWFC : (parseRows content).head? = some headerDefault)
    (hnow : fieldOK now) (i : Nat)
    (hidx : List.findIdx? (fun job => dictGet job statusK = pendingS)
      (loadJobs (some content)) = some i) :
    (parseRows (claim_step content now).1).head? = some headerDefault ∧
    loadJobs (some (claim_step content now).1) =
      (loadJobs (some content)).set i
        (dictSet (dictSet ((loadJobs (some content)).getD i []) statusK inProgressS)
          updatedK now) := by
  have hi : i < (loadJobs (some content)).length :=
    (List.findIdx?_eq_some_iff_findIdx_eq.mp hidx).1
  have hcanon : ∀ j ∈ (loadJobs (some content)).set i
      (dictSet (dictSet ((loadJobs (some content)).getD i []) statusK inProgressS)
        updatedK now), canonJob j := by
    intro j hj
    rcases List.mem_or_eq_of_mem_set hj with hj | rfl
    · exact canonJob_of_load content hWFC j hj
    · apply canonJob_claimed _ now _ hnow
      rw [List.getD_eq_getElem _ _ hi]
      exact canonJob_of_load content hWFC _ (List.getElem_mem hi)
  rw [claim_step_eq content now hWFC i hidx]
  constructor
  · rw [parseRows_write _ hcanon]
    rfl
  · have h2 := read_write_roundtrip _ hcanon
    exact congrArg Prod.snd h2
end FilesQ

/-- C3: in a queue state where jobs with ids 1..N are all `pending`, the
consumer's scan/claim step selects the job with the lowest id: the
flat-file backend scans the rows in file order and claims the first
(index 0, id "1"), and the transactional backend's
`ORDER BY id LIMIT 1` selects id 1. -/
theorem C3_fifo_lowest_id (content now : PyStr) (N : Nat) (hN : 1 ≤ N)
    (hWFC : (FilesQ.parseRows content).head? = some FilesQ.headerDefault)
    (hlen : (FilesQ.loadJobs (some content)).length = N)
    (hids : ∀ k, k < N →
      dictGet ((FilesQ.loadJobs (some content)).getD k []) FilesQ.idK = natToStr (k + 1))
    (hpend : ∀ j ∈ FilesQ.loadJobs (some content),
      dictGet j FilesQ.statusK = FilesQ.pendingS) :
    (∃ claimed, (FilesQ.claim_step content now).2 = some (0, claimed) ∧
      dictGet claimed FilesQ.idK = natToStr 1) ∧
    FilesQ.find_pending_job (FilesQ.loadJobs (some content)) =
      some ((FilesQ.loadJobs (some content)).getD 0 []) ∧
    (∀ (t : SqliteQ.Table) (ts : String) (M : Nat), 1 ≤ M →
      t.rows.map SqliteQ.SqlJob.id = (List.range M).map (· + 1) →
      (∀ r ∈ t.rows, r.status = "pending") →
      (SqliteQ.fetch_pending_job t ts).2 = some 1) := by
  have hne : FilesQ.loadJobs (some content) ≠ [] := by
    intro habs; rw [habs] at hlen; simp at hlen; omega
  rcases List.exists_cons_of_ne_nil hne with ⟨j0, rest, hj⟩
  have hp0 : dictGet j0 FilesQ.statusK = FilesQ.pendingS :=
    hpend j0 (hj ▸ List.mem_cons_self j0 rest)
  have hidx : List.findIdx? (fun job => dictGet job FilesQ.statusK = FilesQ.pendingS)
      (FilesQ.loadJobs (some content)) = some 0 := by
    rw [hj, List.findIdx?_cons, if_pos (by simp [hp0])]
  have hgd0 : (FilesQ.loadJobs (some content)).getD 0 [] = j0 := by
    rw [hj]; rfl
  refine ⟨?_, ?_, ?_⟩
  · refine ⟨dictSet (dictSet ((FilesQ.loadJobs (some content)).getD 0 [])
      FilesQ.statusK FilesQ.inProgressS) FilesQ.updatedK now, ?_, ?_⟩
    · rw [FilesQ.claim_step_eq content now hWFC 0 hidx]
    · obtain ⟨a, b, c, d, hcanon, -, -, -, -⟩ :=
        FilesQ.canonJob_of_load content hWFC j0 (hj ▸ List.mem_cons_self j0 rest)
      have hid0 := hids 0 (by omega)
      rw [hgd0, hcanon]
      rw [hgd0, hcanon, FilesQ.dictGet_mkJob_id] at hid0
      rw [FilesQ.dictSet_mkJob_status, FilesQ.dictSet_mkJob_updated,
        FilesQ.dictGet_mkJob_id]
      exact hid0
  · rw [hgd0, hj]
    unfold FilesQ.find_pending_job
    rw [List.find?_cons_of_pos _ (by simp [hp0])]
  · intro t ts M hM hids2 hpend2
    have hfilter : t.rows.filter (fun r => r.status = "pending") = t.rows :=
      List.filter_eq_self.mpr (fun r hr => by simp [hpend2 r hr])
    have hrne : t.rows ≠ [] := by
      intro habs
      rw [habs] at hids2
      have : (1 : Nat) ∈ (List.range M).map (· + 1) :=
        List.mem_map.mpr ⟨0, List.mem_range.mpr (by omega), rfl⟩
      rw [← hids2] at this
      simp at this
    cases hm : SqliteQ.minIdRow (t.rows.filter (fun r => r.status = "pending")) with
    | none =>
      rw [hfilter] at hm
      exact absurd ((SqliteQ.minIdRow_eq_none _).mp hm) hrne
    | some r =>
      have hrid : r.id = 1 := by
        have hrmem : r ∈ t.rows := by
          have := SqliteQ.minIdRow_mem _ _ hm
          rwa [hfilter] at this
        have hr_in_ids : r.id ∈ (List.range M).map (· + 1) :=
          hids2 ▸ List.mem_map_of_mem SqliteQ.SqlJob.id hrmem
        have hge : 1 ≤ r.id := by
          rcases List.mem_map.mp hr_in_ids with ⟨k, -, hk⟩
          omega
        have h1 : (1 : Nat) ∈ t.rows.map SqliteQ.SqlJob.id := by
          rw [hids2]
          exact List.mem_map.mpr ⟨0, List.mem_range.mpr (by omega), rfl⟩
        rcases List.mem_map.mp h1 with ⟨r1, hr1mem, hr1id⟩
        have hle := SqliteQ.minIdRow_le _ _ hm r1 (by rw [hfilter]; exact hr1mem)
        omega
      unfold SqliteQ.fetch_pending_job
      rw [hm]
      dsimp only
      rw [hrid]

/-- Witness for C3 on a two-job queue: the claim returns index 0 with id
"1", and on the matching two-row table the fetch claims id 1. -/
theorem C3_witness :
    (∃ claimed,
      (FilesQ.claim_step (pys "id,status,created_at,updated_at\n1,pending,T1,\n2,pending,T2,\n")
        (pys "U")).2 = some (0, claimed) ∧
      dictGet claimed FilesQ.idK = natToStr 1) ∧
    (SqliteQ.fetch_pending_job ⟨2, [⟨1, "pending", "T1", none⟩, ⟨2, "pending", "T2", none⟩]⟩
      "U").2 = some 1 := by
  have h := C3_fifo_lowest_id
    (pys "id,status,created_at,updated_at\n1,pending,T1,\n2,pending,T2,\n") (pys "U") 2
    (by omega) (by decide) (by decide) (by decide) (by decide)
  exact ⟨h.1, h.2.2 ⟨2, [⟨1, "pending", "T1", none⟩, ⟨2, "pending", "T2", none⟩]⟩ "U" 2
    (by omega) (by decide) (by decide)⟩

/-- C7: a persisted row with fewer comma-delimited fields than the header
still loads (the parse is total on it) as a job dict in which each missing
trailing field is the empty string; the job appears among the loaded jobs. -/
theorem C7_short_row_pads_empty (content : PyStr) (row : List PyStr)
    (h : (FilesQ.parseRows content).head? = some FilesQ.headerDefault)
    (hrow : row ∈ (FilesQ.parseRows content).tail) (hshort : row.length < 4) :
    FilesQ.rowToJob FilesQ.headerDefault row ∈ FilesQ.loadJobs (some content) ∧
    ∀ k, row.length ≤ k → k < 4 →
      dictGet (FilesQ.rowToJob FilesQ.headerDefault row)
        (FilesQ.headerDefault.getD k []) = [] := by
  constructor
  · rw [FilesQ.loadJobs_of_WF (some content) (Or.inr h)]
    have hcne : content ≠ [] := by
      intro habs
      rw [habs, FilesQ.parseRows_nil] at h
      simp at h
    simp only [FilesQ.parseDataRows, if_neg hcne]
    exact List.mem_map_of_mem (FilesQ.rowToJob FilesQ.headerDefault) hrow
  · intro k hk1 hk2
    rw [FilesQ.rowToJob_eq]
    interval_cases k
    · rw [show FilesQ.headerDefault.getD 0 [] = FilesQ.idK from rfl,
        FilesQ.dictGet_mkJob_id, List.getD_eq_default row [] hk1]
    · rw [show FilesQ.headerDefault.getD 1 [] = FilesQ.statusK from rfl,
        FilesQ.dictGet_mkJob_status, List.getD_eq_default row [] hk1]
    · rw [show FilesQ.headerDefault.getD 2 [] = FilesQ.createdK from rfl,
        FilesQ.dictGet_mkJob_created, List.getD_eq_default row [] hk1]
    · rw [show FilesQ.headerDefault.getD 3 [] = FilesQ.updatedK from rfl,
        FilesQ.dictGet_mkJob_updated, List.getD_eq_default row [] hk1]

/-- Witness for C7: the row `5,pending` (two fields) loads with empty
`created_at` and `updated_at`. -/
theorem C7_witness :
    FilesQ.rowToJob FilesQ.headerDefault [pys "5", pys "pending"] ∈
      FilesQ.loadJobs (some (pys "id,status,created_at,updated_at\n5,pending\n")) ∧
    dictGet (FilesQ.rowToJob FilesQ.headerDefault [pys "5", pys "pending"])
      FilesQ.createdK = [] ∧
    dictGet (FilesQ.rowToJob FilesQ.headerDefault [pys "5", pys "pending"])
      FilesQ.updatedK = [] := by
  have h := C7_short_row_pads_empty (pys "id,status,created_at,updated_at\n5,pending\n")
    [pys "5", pys "pending"] (by decide) (by decide) (by decide)
  exact ⟨h.1, h.2 2 (by decide) (by decide), h.2 3 (by decide) (by decide)⟩

namespace FilesQ

/-- A sequence of claim attempts against the flat-file store, collecting
the claimed row indices. -/
def claimRun (content : PyStr) : List PyStr → List Nat
  | [] => []
  | now :: rest =>
    match claim_step content now with
    | (c1, none) => claimRun c1 rest
    | (c1, some ij) => ij.1 :: claimRun c1 rest

/-- The index `findIdx?` returns points at a pending job. -/
theorem findIdx?_status (jobs : List PyDict) (k : Nat)
    (h : List.findIdx? (fun job => dictGet job statusK = pendingS) jobs = some k) :
    k < jobs.length ∧ dictGet (jobs.getD k []) statusK = pendingS := by
  obtain ⟨hlt, hfi⟩ := List.findIdx?_eq_some_iff_findIdx_eq.mp h
  refine ⟨hlt, ?_⟩
  have hw : List.findIdx (fun job => dictGet job statusK = pendingS) jobs < jobs.length := by
    rw [hfi]; exact hlt
  have hp := List.findIdx_getElem (w := hw)
  rw [List.getD_eq_getElem _ _ hlt]
  have : jobs[List.findIdx (fun job => dictGet job statusK = pendingS) jobs] = jobs[k] := by
    congr 1
  rw [this] at hp
  exact of_decide_eq_true hp

/-- A row index whose job is not `pending` is never returned by any
sequence of claim attempts. -/
theorem claimRun_not_mem (nows : List PyStr) (content : PyStr) (i : Nat)
    (hWFC : (parseRows content).head? = some headerDefault)
    (hnows : ∀ n ∈ nows, fieldOK n)
    (hi : dictGet ((loadJobs (some content)).getD i []) statusK ≠ pendingS) :
    i ∉ claimRun content nows := by
  induction nows generalizing content with
  | nil => simp [claimRun]
  | cons now rest ih =>
    simp only [claimRun]
    cases hidx : List.findIdx? (fun job => dictGet job statusK = pendingS)
        (loadJobs (some content)) with
    | none =>
      rw [claim_step_none_eq content now hWFC hidx]
      exact ih content hWFC (fun n hn => hnows n (List.mem_cons_of_mem now hn)) hi
    | some k =>
      have heq := claim_step_eq content now hWFC k hidx
      have hkstat := findIdx?_status _ _ hidx
      have hki : k ≠ i := by
        intro he
        exact hi (he ▸ hkstat.2)
      rw [heq]
      dsimp only
      intro hmem
      rcases List.mem_cons.mp hmem with rfl | hmem
      · exact hki rfl
      · have hrt := claim_step_roundtrip content now hWFC
          (hnows now (List.mem_cons_self now rest)) k hidx
        rw [heq] at hrt
        dsimp only at hrt
        refine ih _ hrt.1 (fun n hn => hnows n (List.mem_cons_of_mem now hn)) ?_ hmem
        rw [hrt.2, getD_set_ne _ _ i k hki]
        exact hi

end FilesQ

/-- C1: a successful claim transitions exactly one job from `pending` to
`in_progress` — the claimed job was `pending` before, is `in_progress`
after, and every other job's status is untouched — and no sequence of
subsequent claim attempts against the resulting queue state ever returns
that job again; in the transactional backend jobs are identified by id, in
the flat-file backend by their row. -/
theorem C1_no_double_claim (t : SqliteQ.Table) (now : String) (t1 : SqliteQ.Table)
    (j : Nat) (hnd : SqliteQ.NodupIds t)
    (hfetch : SqliteQ.fetch_pending_job t now = (t1, some j)) :
    (SqliteQ.statusOf t j = some "pending" ∧
     SqliteQ.statusOf t1 j = some "in_progress" ∧
     (∀ i, i ≠ j → SqliteQ.statusOf t1 i = SqliteQ.statusOf t i) ∧
     ∀ nows, j ∉ (SqliteQ.claimSeq t1 nows).2) ∧
    (∀ (content now2 c1 : PyStr) (i : Nat) (claimed : PyDict) (nows : List PyStr),
      (FilesQ.parseRows content).head? = some FilesQ.headerDefault →
      FilesQ.fieldOK now2 → (∀ n ∈ nows, FilesQ.fieldOK n) →
      FilesQ.claim_step content now2 = (c1, some (i, claimed)) →
      dictGet ((FilesQ.loadJobs (some content)).getD i []) FilesQ.statusK =
          FilesQ.pendingS ∧
        dictGet ((FilesQ.loadJobs (some c1)).getD i []) FilesQ.statusK =
          FilesQ.inProgressS ∧
        (∀ k, k ≠ i →
          dictGet ((FilesQ.loadJobs (some c1)).getD k []) FilesQ.statusK =
            dictGet ((FilesQ.loadJobs (some content)).getD k []) FilesQ.statusK) ∧
        i ∉ FilesQ.claimRun c1 nows) := by
  constructor
  · obtain ⟨hpend, hprog⟩ := SqliteQ.statusOf_after_claim_self t now t1 j hnd hfetch
    refine ⟨hpend, hprog, ?_, ?_⟩
    · intro i hij
      exact SqliteQ.statusOf_after_claim_other t now t1 j hfetch i hij
    · intro nows
      have hnd1 : SqliteQ.NodupIds t1 := by
        have := SqliteQ.NodupIds_after_claim t now hnd
        rwa [hfetch] at this
      apply SqliteQ.claimSeq_not_mem t1 nows j hnd1
      rw [hprog]
      simp
  · intro content now2 c1 i claimed nows hWFC hnow hnows hclaim
    have hidx : ∃ i0, List.findIdx? (fun job => dictGet job FilesQ.statusK = FilesQ.pendingS)
        (FilesQ.loadJobs (some content)) = some i0 := by
      cases hidx2 : List.findIdx? (fun job => dictGet job FilesQ.statusK = FilesQ.pendingS)
          (FilesQ.loadJobs (some content)) with
      | none =>
        rw [FilesQ.claim_step_none_eq content now2 hWFC hidx2] at hclaim
        simp at hclaim
      | some i0 => exact ⟨i0, rfl⟩
    obtain ⟨i0, hidx⟩ := hidx
    have heq := FilesQ.claim_step_eq content now2 hWFC i0 hidx
    rw [heq] at hclaim
    simp only [Prod.mk.injEq, Option.some.injEq] at hclaim
    obtain ⟨hc1, hi0, hcl⟩ := hclaim
    subst hi0
    have hstat := FilesQ.findIdx?_status _ _ hidx
    have hrt := FilesQ.claim_step_roundtrip content now2 hWFC hnow i0 hidx
    rw [heq] at hrt
    dsimp only at hrt
    have hload1 : FilesQ.loadJobs (some c1) =
        (FilesQ.loadJobs (some content)).set i0
          (dictSet (dictSet ((FilesQ.loadJobs (some content)).getD i0 [])
            FilesQ.statusK FilesQ.inProgressS) FilesQ.updatedK now2) := by
      rw [← hc1]; exact hrt.2
    have hWF1 : (FilesQ.parseRows c1).head? = some FilesQ.headerDefault := by
      rw [← hc1]; exact hrt.1
    have hmem0 : (FilesQ.loadJobs (some content)).getD i0 [] ∈
        FilesQ.loadJobs (some content) := by
      rw [List.getD_eq_getElem _ _ hstat.1]
      exact List.getElem_mem hstat.1
    obtain ⟨a, b, c, d, hcanon, -, -, -, -⟩ :=
      FilesQ.canonJob_of_load content hWFC _ hmem0
    refine ⟨hstat.2, ?_, ?_, ?_⟩
    · rw [hload1, FilesQ.getD_set_eq _ _ i0 hstat.1, hcanon,
        FilesQ.dictSet_mkJob_status, FilesQ.dictSet_mkJob_updated,
        FilesQ.dictGet_mkJob_status]
    · intro k hk
      rw [hload1, FilesQ.getD_set_ne _ _ k i0 (fun he => hk he.symm)]
    · apply FilesQ.claimRun_not_mem nows c1 i0 hWF1 hnows
      rw [hload1, FilesQ.getD_set_eq _ _ i0 hstat.1, hcanon,
        FilesQ.dictSet_mkJob_status, FilesQ.dictSet_mkJob_updated,
        FilesQ.dictGet_mkJob_status]
      decide

/-- Witness for C1 on a two-job queue: claiming job 1 (respectively row 0)
leaves it unclaimable by later claim attempts. -/
theorem C1_witness :
    SqliteQ.statusOf ⟨2, [⟨1, "pending", "T1", none⟩, ⟨2, "pending", "T2", none⟩]⟩ 1 =
        some "pending" ∧
    SqliteQ.statusOf ⟨2, [⟨1, "in_progress", "T1", some "U"⟩, ⟨2, "pending", "T2", none⟩]⟩ 1 =
        some "in_progress" ∧
    1 ∉ (SqliteQ.claimSeq ⟨2, [⟨1, "in_progress", "T1", some "U"⟩, ⟨2, "pending", "T2", none⟩]⟩
        ["U2", "U3"]).2 ∧
    0 ∉ FilesQ.claimRun
        (FilesQ.claim_step (pys "id,status,created_at,updated_at\n1,pending,T1,\n2,pending,T2,\n")
          (pys "U")).1 [pys "V"] := by
  have h := C1_no_double_claim
    ⟨2, [⟨1, "pending", "T1", none⟩, ⟨2, "pending", "T2", none⟩]⟩ "U"
    ⟨2, [⟨1, "in_progress", "T1", some "U"⟩, ⟨2, "pending", "T2", none⟩]⟩ 1
    (by unfold SqliteQ.NodupIds; decide) (by decide)
  have hf := h.2 (pys "id,status,created_at,updated_at\n1,pending,T1,\n2,pending,T2,\n")
    (pys "U")
    (FilesQ.claim_step (pys "id,status,created_at,updated_at\n1,pending,T1,\n2,pending,T2,\n")
      (pys "U")).1
    0 (FilesQ.mkJob (pys "1") FilesQ.inProgressS (pys "T1") (pys "U"))
    [pys "V"] (by decide) ⟨by decide, by decide⟩
    (by intro n hn
        rw [List.mem_singleton] at hn
        subst hn
        exact ⟨by decide, by decide⟩)
    (by decide)
  exact ⟨h.1.1, h.1.2.1, h.1.2.2.2 ["U2", "U3"], hf.2.2.2⟩

namespace SqliteQ

/-- The in-place update of `mark_done`, as applied to every row. -/
def doneUpd (j : Nat) (now : String) (x : SqlJob) : SqlJob :=
  if x.id = j then { x with status := "done", updated_at := some now } else x

theorem doneUpd_id (j : Nat) (now : String) (x : SqlJob) : (doneUpd j now x).id = x.id := by
  unfold doneUpd
  by_cases h : x.id = j <;> simp [h]

theorem mark_done_eq_map (t : Table) (j : Nat) (now : String) :
    mark_done t j now = ⟨t.seq, t.rows.map (doneUpd j now)⟩ := rfl

theorem statusOf_mark_done_self (t : Table) (j : Nat) (now : String) (s : String)
    (h : statusOf t j = some s) : statusOf (mark_done t j now) j = some "done" := by
  unfold statusOf at h ⊢
  rw [mark_done_eq_map]
  simp only
  rw [find?_map_of_id_eq (doneUpd j now) (doneUpd_id j now)]
  cases hf : t.rows.find? (fun x => x.id = j) with
  | none => rw [hf] at h; simp at h
  | some q =>
    have hq : q.id = j := by simpa using List.find?_some hf
    simp [doneUpd, hq]

theorem statusOf_mark_done_other (t : Table) (j : Nat) (now : String) (i : Nat)
    (hij : i ≠ j) : statusOf (mark_done t j now) i = statusOf t i := by
  unfold statusOf
  rw [mark_done_eq_map]
  simp only
  rw [find?_map_of_id_eq (doneUpd j now) (doneUpd_id j now)]
  cases hf : t.rows.find? (fun x => x.id = i) with
  | none => rfl
  | some q =>
    have hq : q.id = i := by simpa using List.find?_some hf
    simp [doneUpd, hq, hij]

theorem statusOf_add_of_some (t : Table) (now : String) (j : Nat) (s : String)
    (h : statusOf t j = some s) : statusOf (add_job (some t) now).1 j = some s := by
  unfold statusOf at h ⊢
  unfold add_job init_db
  simp only
  rw [List.find?_append]
  cases hf : t.rows.find? (fun x => x.id = j) with
  | none => rw [hf] at h; simp at h
  | some q => rw [hf] at h; simpa using h

theorem statusOf_add_of_none (t : Table) (now : String) (j : Nat)
    (h : statusOf t j = none) :
    statusOf (add_job (some t) now).1 j = none ∨
    statusOf (add_job (some t) now).1 j = some "pending" := by
  unfold statusOf at h ⊢
  unfold add_job init_db
  simp only
  rw [List.find?_append]
  cases hf : t.rows.find? (fun x => x.id = j) with
  | none =>
    by_cases hj : t.seq + 1 = j
    · right
      rw [List.find?_cons_of_pos _ (by simp [hj])]
      rfl
    · left
      rw [List.find?_cons_of_neg _ (by simp [hj])]
      rfl
  | some q => rw [hf] at h; simp at h

/-- The trace invariant: unique ids, all bounded by the auto-increment
counter. -/
def Inv (t : Table) : Prop :=
  NodupIds t ∧ ∀ r ∈ t.rows, r.id ≤ t.seq

theorem Inv_empty : Inv emptyTable := by
  constructor
  · simp [NodupIds, emptyTable]
  · intro r hr; simp [emptyTable] at hr

theorem Inv_qstep (t : Table) (op : QOp) (h : Inv t) : Inv (qstep t op) := by
  obtain ⟨hnd, hle⟩ := h
  cases op with
  | submit now =>
    constructor
    · unfold NodupIds qstep add_job init_db
      simp only [List.map_append, List.map_cons, List.map_nil]
      rw [List.nodup_append]
      refine ⟨hnd, by simp, ?_⟩
      intro x hx
      simp only [List.mem_singleton]
      rcases List.mem_map.mp hx with ⟨r, hr, rfl⟩
      have := hle r hr
      omega
    · intro r hr
      unfold qstep add_job init_db at hr ⊢
      simp only at hr ⊢
      rcases List.mem_append.mp hr with hr | hr
      · have := hle r hr; omega
      · simp only [List.mem_singleton] at hr
        subst hr
        simp
  | claim now =>
    have hids := rows_ids_after_claim t now (fetch_pending_job t now).1
      (fetch_pending_job t now).2 rfl
    constructor
    · unfold NodupIds
      simp only [qstep]
      rw [hids.1]
      exact hnd
    · intro r hr
      simp only [qstep] at hr ⊢
      have hrid : r.id ∈ (fetch_pending_job t now).1.rows.map SqlJob.id :=
        List.mem_map_of_mem SqlJob.id hr
      rw [hids.1] at hrid
      rcases List.mem_map.mp hrid with ⟨x, hx, hxe⟩
      rw [hids.2, ← hxe]
      exact hle x hx
  | complete jid now =>
    constructor
    · unfold NodupIds
      simp only [qstep]
      rw [mark_done_eq_map]
      simp only [List.map_map, Function.comp_def]
      rw [List.map_congr_left (fun x _ => doneUpd_id jid now x)]
      exact hnd
    · intro r hr
      simp only [qstep] at hr ⊢
      rw [mark_done_eq_map] at hr
      simp only at hr ⊢
      rcases List.mem_map.mp hr with ⟨x, hx, rfl⟩
      rw [mark_done_eq_map]
      simp only
      rw [doneUpd_id]
      exact hle x hx

end SqliteQ

namespace SqliteQ

/-- One admissible operation either leaves a job's status unchanged,
creates the job `pending`, or advances it exactly one step along
`pending → in_progress → done`. -/
theorem qstep_status (t : Table) (op : QOp) (j : Nat) (hInv : Inv t)
    (hpre : ∀ jid now, op = QOp.complete jid now → statusOf t jid = some "in_progress") :
    (statusOf t j = none →
      statusOf (qstep t op) j = none ∨ statusOf (qstep t op) j = some "pending") ∧
    (∀ s, statusOf t j = some s →
      statusOf (qstep t op) j = some s ∨
      (s = "pending" ∧ statusOf (qstep t op) j = some "in_progress") ∨
      (s = "in_progress" ∧ statusOf (qstep t op) j = some "done")) := by
  cases op with
  | submit now =>
    refine ⟨fun h => ?_, fun s h => ?_⟩
    · simp only [qstep]
      exact statusOf_add_of_none t now j h
    · simp only [qstep]
      exact Or.inl (statusOf_add_of_some t now j s h)
  | claim now =>
    refine ⟨fun h => ?_, fun s h => ?_⟩
    · left
      simp only [qstep]
      cases hres : fetch_pending_job t now with
      | mk t1 r? =>
        dsimp only
        cases r? with
        | none =>
          obtain ⟨rfl, -⟩ := fetch_spec_none t now t1 hres
          exact h
        | some k =>
          have hk := (statusOf_after_claim_self t now t1 k hInv.1 hres).1
          have hkj : k ≠ j := by
            intro he
            rw [he, h] at hk
            exact Option.noConfusion hk
          rw [statusOf_after_claim_other t now t1 k hres j (Ne.symm hkj)]
          exact h
    · simp only [qstep]
      cases hres : fetch_pending_job t now with
      | mk t1 r? =>
        dsimp only
        cases r? with
        | none =>
          obtain ⟨rfl, -⟩ := fetch_spec_none t now t1 hres
          exact Or.inl h
        | some k =>
          by_cases hkj : k = j
          · subst hkj
            have hself := statusOf_after_claim_self t now t1 k hInv.1 hres
            right; left
            refine ⟨?_, hself.2⟩
            rw [h] at hself
            exact Option.some.inj hself.1
          · rw [statusOf_after_claim_other t now t1 k hres j (fun he => hkj he.symm)]
            exact Or.inl h
  | complete jid now =>
    have hpre2 := hpre jid now rfl
    refine ⟨fun h => ?_, fun s h => ?_⟩
    · left
      simp only [qstep]
      by_cases hij : j = jid
      · subst hij
        rw [h] at hpre2
        exact Option.noConfusion hpre2
      · rw [statusOf_mark_done_other t jid now j hij]
        exact h
    · simp only [qstep]
      by_cases hij : j = jid
      · subst hij
        right; right
        refine ⟨?_, statusOf_mark_done_self t j now s h⟩
        rw [h] at hpre2
        exact Option.some.inj hpre2
      · rw [statusOf_mark_done_other t jid now j hij]
        exact Or.inl h

/-- The single allowed forward step between distinct statuses. -/
def stepOK (a b : String) : Prop :=
  (a = "pending" ∧ b = "in_progress") ∨ (a = "in_progress" ∧ b = "done")

/-- Two consecutive observations are equal or one allowed step apart. -/
def chainR (a b : String) : Prop := a = b ∨ stepOK a b

/-- Along any admissible trace, the raw (uncollapsed) status observations
of a job form a chain of stays and single forward steps, starting at
`pending` when the job is created inside the trace. -/
theorem rawObs_ok (ops : List QOp) : ∀ (t : Table) (j : Nat), Inv t → Admissible t ops →
    (statusOf t j = none →
      (statusTrace t j ops).reduceOption = [] ∨
      ∃ tl, (statusTrace t j ops).reduceOption = "pending" :: tl ∧
        List.Chain' chainR ("pending" :: tl)) ∧
    (∀ s, statusOf t j = some s →
      ∃ tl, (statusTrace t j ops).reduceOption = s :: tl ∧
        List.Chain' chainR (s :: tl)) := by
  induction ops with
  | nil =>
    intro t j _ _
    refine ⟨fun h => ?_, fun s h => ?_⟩
    · left
      simp [statusTrace, h]
    · exact ⟨[], by simp [statusTrace, h], by simp⟩
  | cons op ops ih =>
    intro t j hInv hadm
    have hadm2 : Admissible (qstep t op) ops := by
      cases hadm <;> assumption
    have hpre : ∀ jid now, op = QOp.complete jid now →
        statusOf t jid = some "in_progress" := by
      intro jid now he
      subst he
      cases hadm with
      | complete _ _ _ _ hst _ => exact hst
    have hInv2 := Inv_qstep t op hInv
    have hstep := qstep_status t op j hInv hpre
    have ihh := ih (qstep t op) j hInv2 hadm2
    refine ⟨fun h => ?_, fun s h => ?_⟩
    · have htr : (statusTrace t j (op :: ops)).reduceOption =
          (statusTrace (qstep t op) j ops).reduceOption := by
        simp [statusTrace, h]
      rw [htr]
      rcases hstep.1 h with h2 | h2
      · exact ihh.1 h2
      · exact Or.inr (ihh.2 "pending" h2)
    · have htr : (statusTrace t j (op :: ops)).reduceOption =
          s :: (statusTrace (qstep t op) j ops).reduceOption := by
        simp [statusTrace, h]
      rw [htr]
      rcases hstep.2 s h with h2 | ⟨hs, h2⟩ | ⟨hs, h2⟩
      · rcases ihh.2 s h2 with ⟨tl, htl, hch⟩
        exact ⟨s :: tl, by rw [htl], List.chain'_cons.mpr ⟨Or.inl rfl, hch⟩⟩
      · rcases ihh.2 "in_progress" h2 with ⟨tl, htl, hch⟩
        exact ⟨"in_progress" :: tl, by rw [htl],
          List.chain'_cons.mpr ⟨Or.inr (Or.inl ⟨hs, rfl⟩), hch⟩⟩
      · rcases ihh.2 "done" h2 with ⟨tl, htl, hch⟩
        exact ⟨"done" :: tl, by rw [htl],
          List.chain'_cons.mpr ⟨Or.inr (Or.inr ⟨hs, rfl⟩), hch⟩⟩

/-- The remaining canonical status sequence from a given status on. -/
def tailCanon : String → List String
  | "pending" => ["pending", "in_progress", "done"]
  | "in_progress" => ["in_progress", "done"]
  | _ => ["done"]

/-- Collapsing a chain of stays and single forward steps yields a nonempty
prefix of the canonical tail of its first element. -/
theorem collapseRuns_tailCanon : ∀ (l : List String) (a : String),
    (a = "pending" ∨ a = "in_progress" ∨ a = "done") →
    List.Chain' chainR (a :: l) →
    ∃ n, collapseRuns (a :: l) = (tailCanon a).take (n + 1) := by
  intro l
  induction l with
  | nil =>
    intro a ha _
    refine ⟨0, ?_⟩
    rcases ha with rfl | rfl | rfl <;> rfl
  | cons b l2 ih =>
    intro a ha hch
    obtain ⟨hab, hch2⟩ := List.chain'_cons.mp hch
    by_cases heq : a = b
    · subst heq
      obtain ⟨n, hn⟩ := ih a ha hch2
      refine ⟨n, ?_⟩
      simp only [collapseRuns, if_pos rfl]
      exact hn
    · rcases hab with rfl | hab
      · exact absurd rfl heq
      rcases hab with ⟨rfl, rfl⟩ | ⟨rfl, rfl⟩
      · obtain ⟨n, hn⟩ := ih "in_progress" (Or.inr (Or.inl rfl)) hch2
        cases n with
        | zero =>
          refine ⟨1, ?_⟩
          simp only [collapseRuns, if_neg heq]
          rw [hn]
          rfl
        | succ m =>
          refine ⟨2, ?_⟩
          simp only [collapseRuns, if_neg heq]
          have hlen : (tailCanon "in_progress").length ≤ m + 1 + 1 := by
            rw [show (tailCanon "in_progress").length = 2 from rfl]
            omega
          rw [hn, List.take_of_length_le hlen]
          rfl
      · obtain ⟨n, hn⟩ := ih "done" (Or.inr (Or.inr rfl)) hch2
        refine ⟨1, ?_⟩
        simp only [collapseRuns, if_neg heq]
        have hlen : (tailCanon "done").length ≤ n + 1 := by
          rw [show (tailCanon "done").length = 1 from rfl]
          omega
        rw [hn, List.take_of_length_le hlen]
        rfl

end SqliteQ

namespace FilesQ

/-- A job dict completed in place is again canonical when `now` is
serializable. -/
theorem canonJob_completed (j : PyDict) (now : PyStr) (hj : canonJob j)
    (hnow : fieldOK now) :
    canonJob (dictSet (dictSet j statusK doneS) updatedK now) := by
  obtain ⟨a, b, c, d, rfl, ha, hb, hc, hd⟩ := hj
  rw [dictSet_mkJob_status, dictSet_mkJob_updated]
  exact ⟨a, doneS, c, now, rfl, ha, ⟨by decide, by decide⟩, hc, hnow⟩

theorem dictGet_status_claimed (j : PyDict) (now : PyStr) (hj : canonJob j) :
    dictGet (dictSet (dictSet j statusK inProgressS) updatedK now) statusK = inProgressS := by
  obtain ⟨a, b, c, d, rfl, -, -, -, -⟩ := hj
  rw [dictSet_mkJob_status, dictSet_mkJob_updated, dictGet_mkJob_status]

theorem dictGet_status_completed (j : PyDict) (now : PyStr) (hj : canonJob j) :
    dictGet (dictSet (dictSet j statusK doneS) updatedK now) statusK = doneS := by
  obtain ⟨a, b, c, d, rfl, -, -, -, -⟩ := hj
  rw [dictSet_mkJob_status, dictSet_mkJob_updated, dictGet_mkJob_status]

theorem getD_map (f : PyDict → PyDict) (l : List PyDict) (i : Nat) (h : i < l.length) :
    (l.map f).getD i [] = f (l.getD i []) := by
  rw [List.getD_eq_getElem _ _ (by rw [List.length_map]; exact h),
    List.getD_eq_getElem _ _ h, List.getElem_map]

/-- The done pass on well-formed content: the store is rewritten and loads
back with every row whose `id` field equals `jobId` set to `done` with
`updated_at = now`, all other rows unchanged. -/
theorem complete_pass_roundtrip (content : PyStr) (jobId now : PyStr)
    (hWFC : (parseRows content).head? = some headerDefault) (hnow : fieldOK now) :
    complete_pass (some content) jobId now =
      some (write_queue_with_lock headerDefault ((loadJobs (some content)).map (fun j =>
        if dictGet j idK = jobId then dictSet (dictSet j statusK doneS) updatedK now
        else j))) ∧
    (parseRows (write_queue_with_lock headerDefault ((loadJobs (some content)).map (fun j =>
        if dictGet j idK = jobId then dictSet (dictSet j statusK doneS) updatedK now
        else j)))).head? = some headerDefault ∧
    loadJobs (some (write_queue_with_lock headerDefault ((loadJobs (some content)).map (fun j =>
        if dictGet j idK = jobId then dictSet (dictSet j statusK doneS) updatedK now
        else j)))) =
      (loadJobs (some content)).map (fun j =>
        if dictGet j idK = jobId then dictSet (dictSet j statusK doneS) updatedK now
        else j) := by
  have hread := readContent_of_WF content hWFC
  have hjobs : loadJobs (some content) =
      (parseRows content).tail.map (rowToJob headerDefault) := by
    simp only [loadJobs, read_queue_with_lock, hread]
  have hcanon : ∀ j ∈ (loadJobs (some content)).map (fun j =>
      if dictGet j idK = jobId then dictSet (dictSet j statusK doneS) updatedK now
      else j), canonJob j := by
    intro j hj
    rcases List.mem_map.mp hj with ⟨j0, hj0, rfl⟩
    have hc0 := canonJob_of_load content hWFC j0 hj0
    by_cases hid : dictGet j0 idK = jobId
    · rw [if_pos hid]
      exact canonJob_completed j0 now hc0 hnow
    · rw [if_neg hid]
      exact hc0
  refine ⟨?_, ?_, ?_⟩
  · simp only [complete_pass, hread]
    rw [hjobs]
  · rw [parseRows_write _ hcanon]
    rfl
  · exact congrArg Prod.snd (read_write_roundtrip _ hcanon)

end FilesQ

namespace FilesQ

/-- One operation of the flat-file queue. -/
inductive FOp where
  /-- The producer's `add_job` with the given timestamp. -/
  | submit (now : PyStr)
  /-- The worker's claim step (steps 1–3); a no-op sleep when the file
  does not exist. -/
  | claim (now : PyStr)
  /-- The worker's done pass (steps 5–6) for the id of the job it
  processed. -/
  | complete (jobId : PyStr) (now : PyStr)

/-- The store after one operation. -/
def fstep (store : Option PyStr) : FOp → Option PyStr
  | FOp.submit now => some (add_job store now).1
  | FOp.claim now =>
    match store with
    | none => none
    | some content => some (claim_step content now).1
  | FOp.complete jobId now => complete_pass store jobId now

/-- The status of the row at index `i` as a reader observes it (`none`
while no such row exists). -/
def fstatusOf (store : Option PyStr) (i : Nat) : Option PyStr :=
  if i < (loadJobs store).length then
    some (dictGet ((loadJobs store).getD i []) statusK)
  else none

/-- Reachable flat-file stores: absent, or content headed by the canonical
header. -/
def FWF : Option PyStr → Prop
  | none => True
  | some content => (parseRows content).head? = some headerDefault

theorem wfstore_of_FWF (s : Option PyStr) (h : FWF s) : WFStore s := by
  match s with
  | none => trivial
  | some content => exact Or.inr h

/-- Admissible flat-file operation sequences: timestamps are serializable
(as `datetime.isoformat` output always is), and a done pass is only issued
for the id of a job the worker has just claimed and processed — at which
point every row carrying that id is `in_progress`. -/
inductive FAdmissible : Option PyStr → List FOp → Prop where
  | nil (s : Option PyStr) : FAdmissible s []
  | submit (s : Option PyStr) (now : PyStr) (ops : List FOp) (hnow : fieldOK now)
      (h : FAdmissible (fstep s (FOp.submit now)) ops) :
      FAdmissible s (FOp.submit now :: ops)
  | claim (s : Option PyStr) (now : PyStr) (ops : List FOp) (hnow : fieldOK now)
      (h : FAdmissible (fstep s (FOp.claim now)) ops) :
      FAdmissible s (FOp.claim now :: ops)
  | complete (s : Option PyStr) (jobId now : PyStr) (ops : List FOp)
      (hnow : fieldOK now)
      (hpre : ∀ k, k < (loadJobs s).length →
        dictGet ((loadJobs s).getD k []) idK = jobId →
        dictGet ((loadJobs s).getD k []) statusK = inProgressS)
      (h : FAdmissible (fstep s (FOp.complete jobId now)) ops) :
      FAdmissible s (FOp.complete jobId now :: ops)

/-- Every operation with a serializable timestamp preserves
well-formedness of the store. -/
theorem FWF_fstep (s : Option PyStr) (op : FOp) (hWF : FWF s)
    (hnowS : ∀ now, op = FOp.submit now → fieldOK now)
    (hnowC : ∀ now, op = FOp.claim now → fieldOK now)
    (hnowD : ∀ jobId now, op = FOp.complete jobId now → fieldOK now) :
    FWF (fstep s op) := by
  cases op with
  | submit now =>
    show (parseRows (add_job s now).1).head? = some headerDefault
    rw [parseRows_add s now (wfstore_of_FWF s hWF) (hnowS now rfl)]
    rfl
  | claim now =>
    match s with
    | none => trivial
    | some content =>
      show (parseRows (claim_step content now).1).head? = some headerDefault
      cases hidx : List.findIdx? (fun job => dictGet job statusK = pendingS)
          (loadJobs (some content)) with
      | none =>
        rw [claim_step_none_eq content now hWF hidx]
        exact hWF
      | some k =>
        exact (claim_step_roundtrip content now hWF (hnowC now rfl) k hidx).1
  | complete jobId now =>
    match s with
    | none => trivial
    | some content =>
      have h := complete_pass_roundtrip content jobId now hWF (hnowD jobId now rfl)
      show FWF (complete_pass (some content) jobId now)
      rw [h.1]
      exact h.2.1

end FilesQ

namespace FilesQ

theorem fstatusOf_eq_some (s : Option PyStr) (i : Nat)
    (hi : i < (loadJobs s).length) :
    fstatusOf s i = some (dictGet ((loadJobs s).getD i []) statusK) := by
  simp only [fstatusOf, if_pos hi]

theorem fstatusOf_eq_none (s : Option PyStr) (i : Nat)
    (hi : ¬ i < (loadJobs s).length) : fstatusOf s i = none := by
  simp only [fstatusOf, if_neg hi]

theorem lt_of_fstatusOf_some (s : Option PyStr) (i : Nat) (st : PyStr)
    (h : fstatusOf s i = some st) :
    i < (loadJobs s).length ∧ dictGet ((loadJobs s).getD i []) statusK = st := by
  by_cases hi : i < (loadJobs s).length
  · rw [fstatusOf_eq_some s i hi] at h
    exact ⟨hi, Option.some.inj h⟩
  · rw [fstatusOf_eq_none s i hi] at h
    exact absurd h (by simp)

theorem not_lt_of_fstatusOf_none (s : Option PyStr) (i : Nat)
    (h : fstatusOf s i = none) : ¬ i < (loadJobs s).length := by
  intro hi
  rw [fstatusOf_eq_some s i hi] at h
  simp at h

/-- One admissible flat-file operation either leaves a row's status
unchanged, creates the row `pending`, or advances it exactly one step
along `pending → in_progress → done`. -/
theorem fstep_status (s : Option PyStr) (op : FOp) (i : Nat) (hWF : FWF s)
    (hnowS : ∀ now, op = FOp.submit now → fieldOK now)
    (hnowC : ∀ now, op = FOp.claim now → fieldOK now)
    (hnowD : ∀ jobId now, op = FOp.complete jobId now → fieldOK now ∧
      ∀ k, k < (loadJobs s).length →
        dictGet ((loadJobs s).getD k []) idK = jobId →
        dictGet ((loadJobs s).getD k []) statusK = inProgressS) :
    (fstatusOf s i = none →
      fstatusOf (fstep s op) i = none ∨ fstatusOf (fstep s op) i = some pendingS) ∧
    (∀ st, fstatusOf s i = some st →
      fstatusOf (fstep s op) i = some st ∨
      (st = pendingS ∧ fstatusOf (fstep s op) i = some inProgressS) ∨
      (st = inProgressS ∧ fstatusOf (fstep s op) i = some doneS)) := by
  cases op with
  | submit now =>
    have hload := loadJobs_add s now (wfstore_of_FWF s hWF) (hnowS now rfl)
    constructor
    · intro h
      have hi := not_lt_of_fstatusOf_none s i h
      by_cases hieq : i = (loadJobs s).length
      · right
        subst hieq
        show fstatusOf (some (add_job s now).1) (loadJobs s).length = some pendingS
        rw [fstatusOf_eq_some _ _ (by rw [hload]; simp)]
        rw [hload, List.getD_append_right _ _ _ _ (le_refl _), Nat.sub_self]
        rfl
      · left
        show fstatusOf (some (add_job s now).1) i = none
        apply fstatusOf_eq_none
        rw [hload]
        simp only [List.length_append, List.length_cons, List.length_nil]
        omega
    · intro st h
      obtain ⟨hi, hst⟩ := lt_of_fstatusOf_some s i st h
      left
      show fstatusOf (some (add_job s now).1) i = some st
      rw [fstatusOf_eq_some _ _ (by rw [hload]; simp only [List.length_append]; omega)]
      rw [hload, List.getD_append _ _ _ _ hi, hst]
  | claim now =>
    match s with
    | none =>
      constructor
      · intro h
        left
        exact h
      · intro st h
        rw [fstatusOf_eq_none none i (by simp [loadJobs, read_queue_with_lock])] at h
        exact absurd h (by simp)
    | some content =>
      cases hidx : List.findIdx? (fun job => dictGet job statusK = pendingS)
          (loadJobs (some content)) with
      | none =>
        have heq : (claim_step content now).1 = content := by
          rw [claim_step_none_eq content now hWF hidx]
        constructor
        · intro h
          left
          show fstatusOf (some (claim_step content now).1) i = none
          rw [heq]
          exact h
        · intro st h
          left
          show fstatusOf (some (claim_step content now).1) i = some st
          rw [heq]
          exact h
      | some k =>
        have hrt := claim_step_roundtrip content now hWF (hnowC now rfl) k hidx
        have hstat := findIdx?_status _ _ hidx
        have hlen2 : (loadJobs (some (claim_step content now).1)).length =
            (loadJobs (some content)).length := by
          rw [hrt.2, List.length_set]
        constructor
        · intro h
          left
          have hi := not_lt_of_fstatusOf_none _ _ h
          show fstatusOf (some (claim_step content now).1) i = none
          exact fstatusOf_eq_none _ i (by rw [hlen2]; exact hi)
        · intro st h
          obtain ⟨hi, hst⟩ := lt_of_fstatusOf_some _ _ _ h
          by_cases hik : i = k
          · subst hik
            right; left
            constructor
            · rw [← hst]
              exact hstat.2
            · show fstatusOf (some (claim_step content now).1) i = some inProgressS
              rw [fstatusOf_eq_some _ i (by rw [hlen2]; exact hi), hrt.2,
                getD_set_eq _ _ i hi]
              have hmem0 : (loadJobs (some content)).getD i [] ∈
                  loadJobs (some content) := by
                rw [List.getD_eq_getElem _ _ hi]
                exact List.getElem_mem hi
              rw [dictGet_status_claimed _ now (canonJob_of_load content hWF _ hmem0)]
          · left
            show fstatusOf (some (claim_step content now).1) i = some st
            rw [fstatusOf_eq_some _ i (by rw [hlen2]; exact hi), hrt.2,
              getD_set_ne _ _ i k (fun he => hik he.symm), hst]
  | complete jobId now =>
    obtain ⟨hnow, hpre⟩ := hnowD jobId now rfl
    match s with
    | none =>
      constructor
      · intro h
        left
        exact h
      · intro st h
        rw [fstatusOf_eq_none none i (by simp [loadJobs, read_queue_with_lock])] at h
        exact absurd h (by simp)
    | some content =>
      have hcp := complete_pass_roundtrip content jobId now hWF hnow
      constructor
      · intro h
        left
        have hi := not_lt_of_fstatusOf_none _ _ h
        show fstatusOf (complete_pass (some content) jobId now) i = none
        rw [hcp.1]
        apply fstatusOf_eq_none
        rw [hcp.2.2, List.length_map]
        exact hi
      · intro st h
        obtain ⟨hi, hst⟩ := lt_of_fstatusOf_some _ _ _ h
        have hmem0 : (loadJobs (some content)).getD i [] ∈ loadJobs (some content) := by
          rw [List.getD_eq_getElem _ _ hi]
          exact List.getElem_mem hi
        have hgd : (loadJobs (some (write_queue_with_lock headerDefault
            ((loadJobs (some content)).map (fun j =>
              if dictGet j idK = jobId then dictSet (dictSet j statusK doneS) updatedK now
              else j))))).getD i [] =
            (fun j => if dictGet j idK = jobId then
              dictSet (dictSet j statusK doneS) updatedK now else j)
              ((loadJobs (some content)).getD i []) := by
          rw [hcp.2.2, getD_map _ _ i hi]
        by_cases hid : dictGet ((loadJobs (some content)).getD i []) idK = jobId
        · right; right
          constructor
          · rw [← hst]
            exact hpre i hi hid
          · show fstatusOf (complete_pass (some content) jobId now) i = some doneS
            rw [hcp.1]
            rw [fstatusOf_eq_some _ i (by rw [hcp.2.2, List.length_map]; exact hi), hgd]
            simp only [if_pos hid]
            rw [dictGet_status_completed _ now (canonJob_of_load content hWF _ hmem0)]
        · left
          show fstatusOf (complete_pass (some content) jobId now) i = some st
          rw [hcp.1]
          rw [fstatusOf_eq_some _ i (by rw [hcp.2.2, List.length_map]; exact hi), hgd]
          simp only [if_neg hid]
          rw [hst]

end FilesQ

namespace FilesQ

/-- The statuses of row `i` observed after each step of the trace
(including the initial store), `none` while the row does not exist. -/
def fstatusTrace (s : Option PyStr) (i : Nat) : List FOp → List (Option PyStr)
  | [] => [fstatusOf s i]
  | op :: ops => fstatusOf s i :: fstatusTrace (fstep s op) i ops

/-- Collapse consecutive repeats, keeping one representative of each run. -/
def collapseRunsF : List PyStr → List PyStr
  | [] => []
  | [a] => [a]
  | a :: b :: rest =>
    if a = b then collapseRunsF (b :: rest) else a :: collapseRunsF (b :: rest)

/-- The observed status sequence of row `i` along a flat-file trace: the
distinct statuses in order of first observation of each run. -/
def fobservedStatuses (s : Option PyStr) (i : Nat) (ops : List FOp) : List PyStr :=
  collapseRunsF ((fstatusTrace s i ops).reduceOption)

/-- The single allowed forward step between distinct statuses. -/
def stepOKF (a b : PyStr) : Prop :=
  (a = pendingS ∧ b = inProgressS) ∨ (a = inProgressS ∧ b = doneS)

/-- Two consecutive observations are equal or one allowed step apart. -/
def chainRF (a b : PyStr) : Prop := a = b ∨ stepOKF a b

/-- Along any admissible flat-file trace, the raw (uncollapsed) status
observations of a row form a chain of stays and single forward steps,
starting at `pending` when the row is created inside the trace. -/
theorem frawObs_ok (ops : List FOp) : ∀ (s : Option PyStr) (i : Nat),
    FWF s → FAdmissible s ops →
    (fstatusOf s i = none →
      (fstatusTrace s i ops).reduceOption = [] ∨
      ∃ tl, (fstatusTrace s i ops).reduceOption = pendingS :: tl ∧
        List.Chain' chainRF (pendingS :: tl)) ∧
    (∀ st, fstatusOf s i = some st →
      ∃ tl, (fstatusTrace s i ops).reduceOption = st :: tl ∧
        List.Chain' chainRF (st :: tl)) := by
  induction ops with
  | nil =>
    intro s i _ _
    refine ⟨fun h => ?_, fun st h => ?_⟩
    · left
      simp [fstatusTrace, h]
    · exact ⟨[], by simp [fstatusTrace, h], by simp⟩
  | cons op ops ih =>
    intro s i hWF hadm
    have hadm2 : FAdmissible (fstep s op) ops := by
      cases hadm <;> assumption
    have hnowS : ∀ now, op = FOp.submit now → fieldOK now := by
      intro now he
      subst he
      cases hadm with
      | submit _ _ _ hnow _ => exact hnow
    have hnowC : ∀ now, op = FOp.claim now → fieldOK now := by
      intro now he
      subst he
      cases hadm with
      | claim _ _ _ hnow _ => exact hnow
    have hnowD : ∀ jobId now, op = FOp.complete jobId now → fieldOK now ∧
        ∀ k, k < (loadJobs s).length →
          dictGet ((loadJobs s).getD k []) idK = jobId →
          dictGet ((loadJobs s).getD k []) statusK = inProgressS := by
      intro jobId now he
      subst he
      cases hadm with
      | complete _ _ _ _ hnow hpre _ => exact ⟨hnow, hpre⟩
    have hWF2 : FWF (fstep s op) := FWF_fstep s op hWF hnowS hnowC
      (fun jobId now he => (hnowD jobId now he).1)
    have hstep := fstep_status s op i hWF hnowS hnowC hnowD
    have ihh := ih (fstep s op) i hWF2 hadm2
    refine ⟨fun h => ?_, fun st h => ?_⟩
    · have htr : (fstatusTrace s i (op :: ops)).reduceOption =
          (fstatusTrace (fstep s op) i ops).reduceOption := by
        simp [fstatusTrace, h]
      rw [htr]
      rcases hstep.1 h with h2 | h2
      · exact ihh.1 h2
      · exact Or.inr (ihh.2 pendingS h2)
    · have htr : (fstatusTrace s i (op :: ops)).reduceOption =
          st :: (fstatusTrace (fstep s op) i ops).reduceOption := by
        simp [fstatusTrace, h]
      rw [htr]
      rcases hstep.2 st h with h2 | ⟨hs, h2⟩ | ⟨hs, h2⟩
      · rcases ihh.2 st h2 with ⟨tl, htl, hch⟩
        exact ⟨st :: tl, by rw [htl], List.chain'_cons.mpr ⟨Or.inl rfl, hch⟩⟩
      · rcases ihh.2 inProgressS h2 with ⟨tl, htl, hch⟩
        exact ⟨inProgressS :: tl, by rw [htl],
          List.chain'_cons.mpr ⟨Or.inr (Or.inl ⟨hs, rfl⟩), hch⟩⟩
      · rcases ihh.2 doneS h2 with ⟨tl, htl, hch⟩
        exact ⟨doneS :: tl, by rw [htl],
          List.chain'_cons.mpr ⟨Or.inr (Or.inr ⟨hs, rfl⟩), hch⟩⟩

/-- The remaining canonical status sequence from a given status on. -/
def tailCanonF (a : PyStr) : List PyStr :=
  if a = pendingS then [pendingS, inProgressS, doneS]
  else if a = inProgressS then [inProgressS, doneS]
  else [doneS]

/-- Collapsing a chain of stays and single forward steps yields a nonempty
prefix of the canonical tail of its first element. -/
theorem collapseRunsF_tailCanonF : ∀ (l : List PyStr) (a : PyStr),
    (a = pendingS ∨ a = inProgressS ∨ a = doneS) →
    List.Chain' chainRF (a :: l) →
    ∃ n, collapseRunsF (a :: l) = (tailCanonF a).take (n + 1) := by
  intro l
  induction l with
  | nil =>
    intro a ha _
    refine ⟨0, ?_⟩
    rcases ha with rfl | rfl | rfl <;> rfl
  | cons b l2 ih =>
    intro a ha hch
    obtain ⟨hab, hch2⟩ := List.chain'_cons.mp hch
    by_cases heq : a = b
    · subst heq
      obtain ⟨n, hn⟩ := ih a ha hch2
      refine ⟨n, ?_⟩
      simp only [collapseRunsF, if_pos rfl]
      exact hn
    · rcases hab with rfl | hab
      · exact absurd rfl heq
      rcases hab with ⟨rfl, rfl⟩ | ⟨rfl, rfl⟩
      · obtain ⟨n, hn⟩ := ih inProgressS (Or.inr (Or.inl rfl)) hch2
        cases n with
        | zero =>
          refine ⟨1, ?_⟩
          simp only [collapseRunsF, if_neg heq]
          rw [hn]
          rfl
        | succ m =>
          refine ⟨2, ?_⟩
          simp only [collapseRunsF, if_neg heq]
          have hlen : (tailCanonF inProgressS).length ≤ m + 1 + 1 := by
            rw [show (tailCanonF inProgressS).length = 2 from rfl]
            omega
          rw [hn, List.take_of_length_le hlen]
          rfl
      · obtain ⟨n, hn⟩ := ih doneS (Or.inr (Or.inr rfl)) hch2
        refine ⟨1, ?_⟩
        simp only [collapseRunsF, if_neg heq]
        have hlen : (tailCanonF doneS).length ≤ n + 1 := by
          rw [show (tailCanonF doneS).length = 1 from rfl]
          omega
        rw [hn, List.take_of_length_le hlen]
        rfl

end FilesQ

/-- C2: for every job and every admissible sequence of the queue's
operations — producer submits, consumer claims, and consumer completions,
the latter only ever issued by the worker for the job it has just claimed
and processed, at which point that job is `in_progress` — the job's
observed status sequence over time is a (possibly partial) prefix of
`pending, in_progress, done`, in both backends; in particular no operation
ever moves a job's status backward.  The transactional backend starts from
the freshly created empty table and identifies jobs by id; the flat-file
backend starts from the absent file and identifies jobs by their row. -/
theorem C2_status_monotonic :
    (∀ (ops : List SqliteQ.QOp) (j : Nat),
      SqliteQ.Admissible SqliteQ.emptyTable ops →
      ∃ n, SqliteQ.observedStatuses SqliteQ.emptyTable j ops =
        ["pending", "in_progress", "done"].take n) ∧
    (∀ (ops : List FilesQ.FOp) (i : Nat),
      FilesQ.FAdmissible none ops →
      ∃ n, FilesQ.fobservedStatuses none i ops =
        [FilesQ.pendingS, FilesQ.inProgressS, FilesQ.doneS].take n) := by
  constructor
  · intro ops j hadm
    have h := SqliteQ.rawObs_ok ops SqliteQ.emptyTable j SqliteQ.Inv_empty hadm
    have hnone : SqliteQ.statusOf SqliteQ.emptyTable j = none := rfl
    rcases h.1 hnone with h0 | ⟨tl, htl, hch⟩
    · refine ⟨0, ?_⟩
      unfold SqliteQ.observedStatuses
      rw [h0]
      rfl
    · obtain ⟨n, hn⟩ := SqliteQ.collapseRuns_tailCanon tl "pending" (Or.inl rfl) hch
      refine ⟨n + 1, ?_⟩
      unfold SqliteQ.observedStatuses
      rw [htl]
      exact hn
  · intro ops i hadm
    have h := FilesQ.frawObs_ok ops none i trivial hadm
    have hnone : FilesQ.fstatusOf none i = none :=
      FilesQ.fstatusOf_eq_none none i
        (by show ¬ i < ([] : List PyDict).length; simp)
    rcases h.1 hnone with h0 | ⟨tl, htl, hch⟩
    · refine ⟨0, ?_⟩
      unfold FilesQ.fobservedStatuses
      rw [h0]
      rfl
    · obtain ⟨n, hn⟩ := FilesQ.collapseRunsF_tailCanonF tl FilesQ.pendingS (Or.inl rfl) hch
      refine ⟨n + 1, ?_⟩
      unfold FilesQ.fobservedStatuses
      rw [htl]
      exact hn

/-- Witness for C2 in both backends: submit twice, claim, complete the
claimed job; the claimed job's observed status sequence is a prefix of
`pending, in_progress, done`. -/
theorem C2_witness :
    (∃ n, SqliteQ.observedStatuses SqliteQ.emptyTable 1
      [SqliteQ.QOp.submit "T1", SqliteQ.QOp.submit "T2",
       SqliteQ.QOp.claim "U1", SqliteQ.QOp.complete 1 "V1"] =
      ["pending", "in_progress", "done"].take n) ∧
    (∃ n, FilesQ.fobservedStatuses none 0
      [FilesQ.FOp.submit (pys "T1"), FilesQ.FOp.submit (pys "T2"),
       FilesQ.FOp.claim (pys "U1"), FilesQ.FOp.complete (pys "1") (pys "V1")] =
      [FilesQ.pendingS, FilesQ.inProgressS, FilesQ.doneS].take n) := by
  constructor
  · apply C2_status_monotonic.1
    apply SqliteQ.Admissible.submit
    apply SqliteQ.Admissible.submit
    apply SqliteQ.Admissible.claim
    apply SqliteQ.Admissible.complete
    · decide
    · exact SqliteQ.Admissible.nil _
  · apply C2_status_monotonic.2
    apply FilesQ.FAdmissible.submit _ _ _ ⟨by decide, by decide⟩
    apply FilesQ.FAdmissible.submit _ _ _ ⟨by decide, by decide⟩
    apply FilesQ.FAdmissible.claim _ _ _ ⟨by decide, by decide⟩
    apply FilesQ.FAdmissible.complete _ _ _ _ ⟨by decide, by decide⟩ (by decide)
    exact FilesQ.FAdmissible.nil _
